import Mathlib

/-!
Verification of the segmentation evaluation core of the repository
(functions compute_affinities and evaluate in src/local.py).

Modelling conventions:
* A label image is a rectangular list of lists of naturals (numpy 2D int
  array); 0 is background.  The evaluator flattens its inputs immediately,
  so most definitions work on the flattened List Nat.
* Python/numpy floats are modelled as rationals; Python ints as Int/Nat.
* skimage.segmentation.relabel_sequential is modelled from its documented
  behaviour: the distinct nonzero values, in increasing order, are mapped to
  1, 2, ..., k and 0 stays 0.
* scipy.optimize.linear_sum_assignment is modelled by its contract: it
  returns some set of min(n, m) (row, column) pairs, rows pairwise distinct
  and columns pairwise distinct, minimising the total cost.  Theorems about
  the evaluator therefore quantify over every such optimal assignment.
* A Python exception aborting the call is modelled with Option/Except.
-/

namespace SegEval

/-- The set of distinct nonzero labels of a flattened image. -/
def labelSet (xs : List ℕ) : Finset ℕ := xs.toFinset.erase 0

/-- Insertion of x into a list, before the first element that is not
smaller (structural recursion, so that proofs can evaluate it). -/
def insertSorted (x : ℕ) : List ℕ → List ℕ
  | [] => [x]
  | y :: ys => if x ≤ y then x :: y :: ys else y :: insertSorted x ys

/-- Insertion sort on naturals. -/
def sortNat : List ℕ → List ℕ
  | [] => []
  | x :: xs => insertSorted x (sortNat xs)

/-- The distinct nonzero labels in increasing order (the order in which
skimage relabel_sequential assigns the new consecutive ids). -/
def sortedLabels (xs : List ℕ) : List ℕ :=
  sortNat ((xs.filter (fun x => decide (x ≠ 0))).dedup)

/-- The forward map of relabel_sequential: 0 stays 0, the i-th smallest
nonzero label (0-based) becomes i+1. -/
def relabelFun (xs : List ℕ) (x : ℕ) : ℕ :=
  if x = 0 then 0 else (sortedLabels xs).indexOf x + 1

/-- relabel_sequential applied to a flattened label image. -/
def relabelSeq (xs : List ℕ) : List ℕ := xs.map (relabelFun xs)

/-- np.max over a flattened nonnegative integer array.  On a zero-size
array np.max raises a ValueError; the model instead returns 0 there, a
deliberate simplification confined to zero-pixel images (on them the
evaluator of the model still reports an error, only a later one: the
accuracy zero division instead of the np.max ValueError). -/
def listMax (l : List ℕ) : ℕ := l.foldr max 0

/-- int(np.max(gt_labels_rel)): the number of distinct nonzero labels. -/
def numLabels (xs : List ℕ) : ℕ := listMax (relabelSeq xs)

/-- num_matches = min(num_gt_labels, num_pred_labels). -/
def numMatches (gtF predF : List ℕ) : ℕ := min (numLabels gtF) (numLabels predF)

/-- Pixel count of one (gt id, pred id) pair in the overlay of the two
relabeled flattened images (np.unique over columns with counts). -/
def overlapC (gtR predR : List ℕ) (g p : ℕ) : ℕ :=
  (gtR.zip predR).countP (fun q => decide (q.1 = g ∧ q.2 = p))

/-- IoU of gt id g and pred id p (1-based relabeled ids), as written in the
source: c / (gt_count[g] + pred_count[p] - c).  Entries that never co-occur
have c = 0, hence IoU 0, matching the zero-initialised iouMat. -/
def iouId (gtF predF : List ℕ) (g p : ℕ) : ℚ :=
  (overlapC (relabelSeq gtF) (relabelSeq predF) g p : ℚ) /
    (((relabelSeq gtF).count g : ℚ) + ((relabelSeq predF).count p : ℚ) -
      (overlapC (relabelSeq gtF) (relabelSeq predF) g p : ℚ))

/-- Entry (g, p) of the background-stripped iouMat (0-based, iouMat[1:,1:]). -/
def iouM (gtF predF : List ℕ) (g p : ℕ) : ℚ := iouId gtF predF (g + 1) (p + 1)

/-- The index grid of the stripped iouMat: rows are gt instances, columns
pred instances. -/
def grid (n m : ℕ) : Finset (ℕ × ℕ) := Finset.range n ×ˢ Finset.range m

/-- np.max(iouMat) over the stripped matrix.  The fold is seeded with 0;
every IoU entry is nonnegative and the source only evaluates np.max when the
matrix is nonempty, where the two agree. -/
def maxIoU (gtF predF : List ℕ) : ℚ :=
  (grid (numLabels gtF) (numLabels predF)).fold max 0
    (fun q => iouM gtF predF q.1 q.2)

/-- The cost matrix entry of the source:
costs = -(iouMat > th).astype(float) - iouMat / (2 * num_matches). -/
def matchCost (k : ℕ) (io : ℕ → ℕ → ℚ) (th : ℚ) (q : ℕ × ℕ) : ℚ :=
  -(if th < io q.1 q.2 then 1 else 0) - io q.1 q.2 / (2 * (k : ℚ))

/-- The evaluator's concrete cost matrix. -/
def costsOf (gtF predF : List ℕ) (th : ℚ) : ℕ × ℕ → ℚ :=
  matchCost (numMatches gtF predF) (iouM gtF predF) th

/-- One row index and one column index used at most once. -/
def IsMatching (s : Finset (ℕ × ℕ)) : Prop :=
  ∀ a ∈ s, ∀ b ∈ s, a.1 = b.1 ∨ a.2 = b.2 → a = b

instance (s : Finset (ℕ × ℕ)) : Decidable (IsMatching s) :=
  inferInstanceAs (Decidable (∀ a ∈ s, ∀ b ∈ s, a.1 = b.1 ∨ a.2 = b.2 → a = b))

/-- A possible shape of the output of linear_sum_assignment on an n x m
matrix: min(n, m) in-range pairs, rows and columns pairwise distinct. -/
def IsAssignment (n m : ℕ) (s : Finset (ℕ × ℕ)) : Prop :=
  s ⊆ grid n m ∧ IsMatching s ∧ s.card = min n m

instance (n m : ℕ) (s : Finset (ℕ × ℕ)) : Decidable (IsAssignment n m s) :=
  inferInstanceAs (Decidable (s ⊆ grid n m ∧ IsMatching s ∧ s.card = min n m))

/-- Total cost of an assignment. -/
def totalCost (c : ℕ × ℕ → ℚ) (s : Finset (ℕ × ℕ)) : ℚ := ∑ q ∈ s, c q

/-- The contract of scipy.optimize.linear_sum_assignment on the cost matrix
built by evaluate: s is an assignment of minimum total cost.  (The bound
through the powerset keeps the predicate decidable; every assignment lies in
the powerset of the grid.) -/
def IsOptimalFor (gtF predF : List ℕ) (th : ℚ) (s : Finset (ℕ × ℕ)) : Prop :=
  IsAssignment (numLabels gtF) (numLabels predF) s ∧
    ∀ t ∈ (grid (numLabels gtF) (numLabels predF)).powerset,
      IsAssignment (numLabels gtF) (numLabels predF) t →
        totalCost (costsOf gtF predF th) s ≤ totalCost (costsOf gtF predF th) t

instance (gtF predF : List ℕ) (th : ℚ) (s : Finset (ℕ × ℕ)) :
    Decidable (IsOptimalFor gtF predF th s) :=
  inferInstanceAs (Decidable
    (IsAssignment (numLabels gtF) (numLabels predF) s ∧
      ∀ t ∈ (grid (numLabels gtF) (numLabels predF)).powerset,
        IsAssignment (numLabels gtF) (numLabels predF) t →
          totalCost (costsOf gtF predF th) s ≤ totalCost (costsOf gtF predF th) t))

/-- The branch condition of the source:
num_matches > 0 and np.max(iouMat) > th (and-short-circuit preserved,
since the second conjunct is only reachable when the first holds). -/
def branchCond (gtF predF : List ℕ) (th : ℚ) : Prop :=
  0 < numMatches gtF predF ∧ th < maxIoU gtF predF

instance (gtF predF : List ℕ) (th : ℚ) : Decidable (branchCond gtF predF th) :=
  inferInstanceAs (Decidable (0 < numMatches gtF predF ∧ th < maxIoU gtF predF))

/-- tp: inside the branch, the number of assigned pairs whose IoU strictly
exceeds th (np.count_nonzero(iouMat[gt_ind, pred_ind] > th)); 0 otherwise. -/
def tpWith (gtF predF : List ℕ) (th : ℚ) (s : Finset (ℕ × ℕ)) : ℕ :=
  if branchCond gtF predF th then
    (s.filter (fun q => th < iouM gtF predF q.1 q.2)).card
  else 0

/-- fp = num_pred_labels - tp (Python int subtraction). -/
def fpWith (gtF predF : List ℕ) (th : ℚ) (s : Finset (ℕ × ℕ)) : ℤ :=
  (numLabels predF : ℤ) - (tpWith gtF predF th s : ℤ)

/-- fn = num_gt_labels - tp (Python int subtraction). -/
def fnWith (gtF predF : List ℕ) (th : ℚ) (s : Finset (ℕ × ℕ)) : ℤ :=
  (numLabels gtF : ℤ) - (tpWith gtF predF th s : ℤ)

/-- precision = tp / max(1, tp + fp). -/
def precisionWith (gtF predF : List ℕ) (th : ℚ) (s : Finset (ℕ × ℕ)) : ℚ :=
  (tpWith gtF predF th s : ℚ) /
    ((max 1 ((tpWith gtF predF th s : ℤ) + fpWith gtF predF th s) : ℤ) : ℚ)

/-- recall = tp / max(1, tp + fn). -/
def recallWith (gtF predF : List ℕ) (th : ℚ) (s : Finset (ℕ × ℕ)) : ℚ :=
  (tpWith gtF predF th s : ℚ) /
    ((max 1 ((tpWith gtF predF th s : ℤ) + fnWith gtF predF th s) : ℤ) : ℚ)

/-- accuracy = tp / (tp + fp + fn); a zero denominator is a Python
ZeroDivisionError, modelled as none. -/
def accuracyWith (gtF predF : List ℕ) (th : ℚ) (s : Finset (ℕ × ℕ)) : Option ℚ :=
  if (tpWith gtF predF th s : ℤ) + fpWith gtF predF th s + fnWith gtF predF th s = 0
  then none
  else some ((tpWith gtF predF th s : ℚ) /
    (((tpWith gtF predF th s : ℤ) + fpWith gtF predF th s + fnWith gtF predF th s : ℤ) : ℚ))

/-- The (precision, recall, accuracy) triple returned by evaluate on
flattened inputs, given the assignment s returned by the solver; none when
the accuracy division raises. -/
def evalResultFlat (gtF predF : List ℕ) (th : ℚ) (s : Finset (ℕ × ℕ)) :
    Option (ℚ × ℚ × ℚ) :=
  (accuracyWith gtF predF th s).map
    (fun a => (precisionWith gtF predF th s, recallWith gtF predF th s, a))

/-- The partial matchings of the grid all of whose pairs have IoU strictly
above the threshold. -/
def aboveMatchings (n m : ℕ) (io : ℕ → ℕ → ℚ) (th : ℚ) :
    Finset (Finset (ℕ × ℕ)) :=
  (grid n m).powerset.filter
    (fun S => IsMatching S ∧ ∀ q ∈ S, th < io q.1 q.2)

/-- The maximum cardinality of a one-to-one gt/pred matching restricted to
pairs whose IoU strictly exceeds the threshold. -/
def maxAbove (n m : ℕ) (io : ℕ → ℕ → ℚ) (th : ℚ) : ℕ :=
  (aboveMatchings n m io th).sup Finset.card

/-- A relabeling applied elementwise to a 2D label image. -/
def mapImg (f : ℕ → ℕ) (img : List (List ℕ)) : List (List ℕ) :=
  img.map (List.map f)

/-- The permutation of relabeled (1-based, 0 = background) instance ids
induced by remapping the raw labels of xs with f: the id of a label in xs
is sent to the id of the corresponding remapped label in xs.map f.  Used to
relate the two relabelings in the relabel-invariance proof. -/
def relabelPerm (f : ℕ → ℕ) (xs : List ℕ) (v : ℕ) : ℕ :=
  if v = 0 then 0
  else (sortedLabels (xs.map f)).indexOf (f ((sortedLabels xs).getD (v - 1) 0)) + 1

/-- The same permutation on 0-based iouMat row/column indices. -/
def relabelPerm0 (f : ℕ → ℕ) (xs : List ℕ) (i : ℕ) : ℕ :=
  (sortedLabels (xs.map f)).indexOf (f ((sortedLabels xs).getD i 0))

/-- Errors evaluate can surface: the ValueError numpy raises when stacking
two flattened arrays of different lengths into one 2-row array
(np.array([pred.flatten(), gt.flatten()])), and the ZeroDivisionError of the
accuracy division. -/
inductive EvalError | stackFail | divByZero
deriving DecidableEq

deriving instance DecidableEq for Except

/-- Shape of a rectangular 2D image given as a list of rows. -/
def shapeOf (img : List (List ℕ)) : ℕ × ℕ := (img.length, (img.headD []).length)

/-- evaluate on 2D label images.  relabel_sequential is elementwise, so it
commutes with flattening; the stacking step fails exactly when the two
flattened arrays have different lengths. -/
def evaluateImg (gt pred : List (List ℕ)) (th : ℚ) (s : Finset (ℕ × ℕ)) :
    Except EvalError (ℚ × ℚ × ℚ) :=
  if gt.flatten.length = pred.flatten.length then
    match evalResultFlat gt.flatten pred.flatten th s with
    | some r => .ok r
    | none => .error .divByZero
  else .error .stackFail

/-!  compute_affinities.  The source writes, per offset (d0, d1) and a 2D
array seg of shape (H, W):

  affinity[e, max(0,-d0):min(H,H-d0), max(0,-d1):min(W,W-d1)] =
      (seg[max(0,-d0):min(H,H-d0), max(0,-d1):min(W,W-d1)]
       == seg[max(0,d0):min(H,H+d0), max(0,d1):min(W,W+d1)])
    * (seg[left slice] > 0) * (seg[right slice] > 0)

Python slice semantics: a negative endpoint counts from the end of the
axis, endpoints are clamped to [0, L].  When |d| <= L both slices have
length L - |d| and the assignment is plain elementwise writing; when
|d| > L the two slice lengths can differ, and numpy broadcasting of the
comparison and of the assignment then raises a ValueError unless the
left length is 0 and the right length is 0 or 1 (a length-1 axis
broadcasts to length 0, and an empty assignment target accepts an empty
or length-1 source; any other combination fails, in the comparison when
neither length is 0 or 1, otherwise at the assignment).  -/

/-- Python slice-endpoint normalisation on an axis of length L (step 1):
a negative endpoint counts from the end (clamped below at 0), a
nonnegative one is clamped above at L. -/
def pyIdx (x : ℤ) (L : ℕ) : ℕ := if x < 0 then (L + x).toNat else min x.toNat L

/-- Start of the destination (and left operand) slice for offset d. -/
def lhsLo (d : ℤ) (L : ℕ) : ℕ := pyIdx (max 0 (-d)) L

/-- Stop of the destination (and left operand) slice for offset d. -/
def lhsHi (d : ℤ) (L : ℕ) : ℕ := pyIdx (min L (L - d)) L

/-- Start of the shifted (right operand) slice for offset d. -/
def rhsLo (d : ℤ) (L : ℕ) : ℕ := pyIdx (max 0 d) L

/-- Stop of the shifted (right operand) slice for offset d. -/
def rhsHi (d : ℤ) (L : ℕ) : ℕ := pyIdx (min L (L + d)) L

/-- One axis of the slice assignment succeeds under numpy broadcasting:
equal slice lengths, or an empty destination fed from a length-0 or
length-1 source (see the module comment above for the derivation). -/
def axisOk (d : ℤ) (L : ℕ) : Prop :=
  lhsHi d L - lhsLo d L = rhsHi d L - rhsLo d L ∨
    (lhsHi d L - lhsLo d L = 0 ∧ rhsHi d L - rhsLo d L = 1)

instance (d : ℤ) (L : ℕ) : Decidable (axisOk d L) :=
  inferInstanceAs (Decidable
    (lhsHi d L - lhsLo d L = rhsHi d L - rhsLo d L ∨
      (lhsHi d L - lhsLo d L = 0 ∧ rhsHi d L - rhsLo d L = 1)))

/-- Value of one affinity plane at pixel (i, j) (equal-length case: the
destination positions are exactly the left slice, and position i reads the
right operand at rhsLo + (i - lhsLo)). -/
def planeAt (H W : ℕ) (seg : ℕ → ℕ → ℕ) (d : ℤ × ℤ) (i j : ℕ) : ℕ :=
  if lhsLo d.1 H ≤ i ∧ i < lhsHi d.1 H ∧ lhsLo d.2 W ≤ j ∧ j < lhsHi d.2 W then
    if seg i j = seg (rhsLo d.1 H + (i - lhsLo d.1 H)) (rhsLo d.2 W + (j - lhsLo d.2 W)) ∧
        0 < seg i j ∧
        0 < seg (rhsLo d.1 H + (i - lhsLo d.1 H)) (rhsLo d.2 W + (j - lhsLo d.2 W))
    then 1 else 0
  else 0

/-- compute_affinities on an H x W label image, planes indexed by the
position of the offset in the neighborhood list.  The error covers the two
ways the source raises: on an empty neighborhood list np.array(nhood) is a
1-D array of shape (0,), so dims = nhood.shape[1] raises IndexError before
any plane is written; otherwise an offset can make the slice assignment
raise the numpy broadcasting ValueError described above. -/
def compute_affinities (H W : ℕ) (seg : ℕ → ℕ → ℕ) (nhood : List (ℤ × ℤ)) :
    Except Unit (ℕ → ℕ → ℕ → ℕ) :=
  if nhood ≠ [] ∧ ∀ d ∈ nhood, axisOk d.1 H ∧ axisOk d.2 W then
    .ok (fun e i j => planeAt H W seg (nhood.getD e (0, 0)) i j)
  else .error ()

end SegEval

namespace SegEval

theorem mem_insertSorted {x a : ℕ} :
    ∀ {l : List ℕ}, a ∈ insertSorted x l ↔ a = x ∨ a ∈ l := by
  intro l
  induction l with
  | nil => simp [insertSorted]
  | cons y ys ih =>
      rw [insertSorted]
      split_ifs with hxy
      · simp [List.mem_cons]
      · simp only [List.mem_cons, ih]
        tauto

theorem length_insertSorted (x : ℕ) :
    ∀ l : List ℕ, (insertSorted x l).length = l.length + 1 := by
  intro l
  induction l with
  | nil => rfl
  | cons y ys ih =>
      rw [insertSorted]
      split_ifs with hxy
      · rfl
      · simp only [List.length_cons, ih]

theorem mem_sortNat {a : ℕ} : ∀ {l : List ℕ}, a ∈ sortNat l ↔ a ∈ l := by
  intro l
  induction l with
  | nil => simp [sortNat]
  | cons y ys ih =>
      rw [sortNat, mem_insertSorted]
      simp only [List.mem_cons, ih]

theorem length_sortNat : ∀ l : List ℕ, (sortNat l).length = l.length := by
  intro l
  induction l with
  | nil => rfl
  | cons y ys ih => rw [sortNat, length_insertSorted, ih, List.length_cons]

theorem nodup_insertSorted {x : ℕ} :
    ∀ {l : List ℕ}, x ∉ l → l.Nodup → (insertSorted x l).Nodup := by
  intro l
  induction l with
  | nil => intro _ _; simp [insertSorted]
  | cons y ys ih =>
      intro hx hl
      rw [insertSorted]
      rw [List.nodup_cons] at hl
      split_ifs with hxy
      · rw [List.nodup_cons, List.nodup_cons]
        refine ⟨?_, hl⟩
        intro hmem
        exact hx hmem
      · rw [List.nodup_cons]
        constructor
        · rw [mem_insertSorted]
          rintro (rfl | hmem)
          · exact hx (List.mem_cons_self _ _)
          · exact hl.1 hmem
        · exact ih (fun hmem => hx (List.mem_cons_of_mem _ hmem)) hl.2

theorem nodup_sortNat : ∀ {l : List ℕ}, l.Nodup → (sortNat l).Nodup := by
  intro l
  induction l with
  | nil => intro _; simp [sortNat]
  | cons y ys ih =>
      intro hl
      rw [List.nodup_cons] at hl
      rw [sortNat]
      exact nodup_insertSorted (fun hmem => hl.1 (mem_sortNat.1 hmem)) (ih hl.2)

theorem sortedLabels_nodup (xs : List ℕ) : (sortedLabels xs).Nodup :=
  nodup_sortNat (List.nodup_dedup _)

theorem mem_sortedLabels {xs : List ℕ} {a : ℕ} :
    a ∈ sortedLabels xs ↔ a ∈ xs ∧ a ≠ 0 := by
  rw [sortedLabels, mem_sortNat, List.mem_dedup, List.mem_filter]
  simp

theorem labelSet_eq_toFinset_filter (xs : List ℕ) :
    labelSet xs = (xs.filter (fun x => decide (x ≠ 0))).toFinset := by
  ext a
  rw [labelSet, Finset.mem_erase, List.mem_toFinset, List.mem_toFinset,
    List.mem_filter]
  simp [and_comm]

theorem length_sortedLabels (xs : List ℕ) :
    (sortedLabels xs).length = (labelSet xs).card := by
  rw [sortedLabels, length_sortNat, labelSet_eq_toFinset_filter,
    List.card_toFinset]

theorem relabelFun_le {xs : List ℕ} {x : ℕ} (hx : x ∈ xs) :
    relabelFun xs x ≤ (labelSet xs).card := by
  unfold relabelFun
  split
  · exact Nat.zero_le _
  · rename_i hx0
    have hmem : x ∈ sortedLabels xs := mem_sortedLabels.2 ⟨hx, hx0⟩
    have h1 := List.indexOf_lt_length.2 hmem
    have h2 := length_sortedLabels xs
    omega

theorem le_listMax_of_mem {l : List ℕ} {a : ℕ} (h : a ∈ l) : a ≤ listMax l := by
  induction l with
  | nil => cases h
  | cons b t ih =>
      rcases List.mem_cons.1 h with rfl | h
      · exact le_max_left _ _
      · exact le_trans (ih h) (le_max_right _ _)

theorem listMax_le {l : List ℕ} {c : ℕ} (h : ∀ a ∈ l, a ≤ c) : listMax l ≤ c := by
  induction l with
  | nil => exact Nat.zero_le _
  | cons b t ih =>
      exact max_le (h b (List.mem_cons_self _ _))
        (ih (fun a ha => h a (List.mem_cons_of_mem _ ha)))

theorem numLabels_eq_card (xs : List ℕ) : numLabels xs = (labelSet xs).card := by
  apply le_antisymm
  · apply listMax_le
    intro a ha
    rcases List.mem_map.1 ha with ⟨x, hx, rfl⟩
    exact relabelFun_le hx
  · set k := (labelSet xs).card with hk
    rcases Nat.eq_zero_or_pos k with h0 | h0
    · omega
    · have hlen : (sortedLabels xs).length = k := length_sortedLabels xs
      have hlt : k - 1 < (sortedLabels xs).length := by omega
      set x := (sortedLabels xs)[k - 1] with hxdef
      have hxmem : x ∈ sortedLabels xs := List.getElem_mem hlt
      have hidx : (sortedLabels xs).indexOf x = k - 1 :=
        List.indexOf_getElem (sortedLabels_nodup xs) _ hlt
      obtain ⟨hxs, hx0⟩ := mem_sortedLabels.1 hxmem
      have hval : relabelFun xs x = k := by
        unfold relabelFun
        rw [if_neg hx0, hidx]
        omega
      apply le_listMax_of_mem
      exact hval ▸ List.mem_map_of_mem (relabelFun xs) hxs

theorem countP_zip_le_left (P : ℕ × ℕ → Bool) (Q : ℕ → Bool)
    (h : ∀ a b, P (a, b) = true → Q a = true) :
    ∀ l1 l2 : List ℕ, (l1.zip l2).countP P ≤ l1.countP Q := by
  intro l1
  induction l1 with
  | nil => intro l2; simp
  | cons a t ih =>
      intro l2
      cases l2 with
      | nil =>
          simp only [List.zip_nil_right, List.countP_nil]
          exact Nat.zero_le _
      | cons b t2 =>
          rw [List.zip_cons_cons, List.countP_cons, List.countP_cons]
          have hih := ih t2
          have h1 : (if P (a, b) then (1 : ℕ) else 0) ≤ (if Q a then (1 : ℕ) else 0) := by
            by_cases hP : P (a, b) = true
            · rw [if_pos hP, if_pos (h a b hP)]
            · rw [if_neg hP]
              exact Nat.zero_le _
          omega

theorem countP_zip_le_right (P : ℕ × ℕ → Bool) (Q : ℕ → Bool)
    (h : ∀ a b, P (a, b) = true → Q b = true) :
    ∀ l1 l2 : List ℕ, (l1.zip l2).countP P ≤ l2.countP Q := by
  intro l1
  induction l1 with
  | nil => intro l2; simp
  | cons a t ih =>
      intro l2
      cases l2 with
      | nil =>
          simp only [List.zip_nil_right, List.countP_nil]
          exact Nat.zero_le _
      | cons b t2 =>
          rw [List.zip_cons_cons, List.countP_cons, List.countP_cons]
          have hih := ih t2
          have h1 : (if P (a, b) then (1 : ℕ) else 0) ≤ (if Q b then (1 : ℕ) else 0) := by
            by_cases hP : P (a, b) = true
            · rw [if_pos hP, if_pos (h a b hP)]
            · rw [if_neg hP]
              exact Nat.zero_le _
          omega

theorem overlapC_le_left (g p : ℕ) (l1 l2 : List ℕ) :
    overlapC l1 l2 g p ≤ l1.count g := by
  rw [List.count_eq_countP]
  apply countP_zip_le_left
  intro a b hab
  simp only [decide_eq_true_eq] at hab
  simp [hab.1]

theorem overlapC_le_right (g p : ℕ) (l1 l2 : List ℕ) :
    overlapC l1 l2 g p ≤ l2.count p := by
  rw [List.count_eq_countP]
  apply countP_zip_le_right
  intro a b hab
  simp only [decide_eq_true_eq] at hab
  simp [hab.2]

theorem ratio_nonneg {c a b : ℕ} (ha : c ≤ a) (_hb : c ≤ b) :
    0 ≤ (c : ℚ) / ((a : ℚ) + (b : ℚ) - (c : ℚ)) := by
  apply div_nonneg (by positivity)
  have ha' : (c : ℚ) ≤ (a : ℚ) := by exact_mod_cast ha
  have hb' : (0 : ℚ) ≤ (b : ℚ) := by positivity
  linarith

theorem ratio_le_one {c a b : ℕ} (ha : c ≤ a) (hb : c ≤ b) :
    (c : ℚ) / ((a : ℚ) + (b : ℚ) - (c : ℚ)) ≤ 1 := by
  rcases Nat.eq_zero_or_pos c with h0 | h0
  · subst h0; simp
  · have ha' : (c : ℚ) ≤ (a : ℚ) := by exact_mod_cast ha
    have hb' : (c : ℚ) ≤ (b : ℚ) := by exact_mod_cast hb
    have hcp : (0 : ℚ) < (c : ℚ) := by exact_mod_cast h0
    rw [div_le_one (by linarith)]
    linarith

theorem iouId_nonneg (gtF predF : List ℕ) (g p : ℕ) :
    0 ≤ iouId gtF predF g p :=
  ratio_nonneg (overlapC_le_left g p _ _) (overlapC_le_right g p _ _)

theorem iouId_le_one (gtF predF : List ℕ) (g p : ℕ) :
    iouId gtF predF g p ≤ 1 :=
  ratio_le_one (overlapC_le_left g p _ _) (overlapC_le_right g p _ _)

theorem iouM_nonneg (gtF predF : List ℕ) (g p : ℕ) : 0 ≤ iouM gtF predF g p :=
  iouId_nonneg gtF predF _ _

theorem iouM_le_one (gtF predF : List ℕ) (g p : ℕ) : iouM gtF predF g p ≤ 1 :=
  iouId_le_one gtF predF _ _

theorem maxIoU_nonneg (gtF predF : List ℕ) : 0 ≤ maxIoU gtF predF :=
  (Finset.le_fold_max _).2 (Or.inl le_rfl)

theorem iouM_le_maxIoU {gtF predF : List ℕ} {g p : ℕ}
    (hg : g < numLabels gtF) (hp : p < numLabels predF) :
    iouM gtF predF g p ≤ maxIoU gtF predF := by
  apply (Finset.le_fold_max _).2
  right
  exact ⟨(g, p), by simp [grid, Finset.mem_product, hg, hp], le_rfl⟩

theorem maxIoU_le {gtF predF : List ℕ} {c : ℚ} (h0 : 0 ≤ c)
    (h : ∀ g < numLabels gtF, ∀ p < numLabels predF, iouM gtF predF g p ≤ c) :
    maxIoU gtF predF ≤ c := by
  apply (Finset.fold_max_le _).2
  refine ⟨h0, ?_⟩
  intro q hq
  rw [grid, Finset.mem_product, Finset.mem_range, Finset.mem_range] at hq
  exact h q.1 hq.1 q.2 hq.2

end SegEval

namespace SegEval

theorem IsMatching.subset {s t : Finset (ℕ × ℕ)} (hts : t ⊆ s)
    (hs : IsMatching s) : IsMatching t :=
  fun a ha b hb hab => hs a (hts ha) b (hts hb) hab

theorem matching_empty : IsMatching (∅ : Finset (ℕ × ℕ)) :=
  fun a ha => absurd ha (Finset.not_mem_empty a)

theorem matching_card_le_left {n m : ℕ} {s : Finset (ℕ × ℕ)}
    (hsub : s ⊆ grid n m) (hm : IsMatching s) : s.card ≤ n := by
  have hinj : Set.InjOn Prod.fst (s : Set (ℕ × ℕ)) := by
    intro a ha b hb hab
    exact hm a ha b hb (Or.inl hab)
  have himg : s.image Prod.fst ⊆ Finset.range n := by
    intro x hx
    rcases Finset.mem_image.1 hx with ⟨q, hq, rfl⟩
    have hq2 := hsub hq
    rw [grid, Finset.mem_product] at hq2
    exact hq2.1
  calc s.card = (s.image Prod.fst).card := (Finset.card_image_of_injOn hinj).symm
    _ ≤ n := by simpa using Finset.card_le_card himg

theorem matching_card_le_right {n m : ℕ} {s : Finset (ℕ × ℕ)}
    (hsub : s ⊆ grid n m) (hm : IsMatching s) : s.card ≤ m := by
  have hinj : Set.InjOn Prod.snd (s : Set (ℕ × ℕ)) := by
    intro a ha b hb hab
    exact hm a ha b hb (Or.inr hab)
  have himg : s.image Prod.snd ⊆ Finset.range m := by
    intro x hx
    rcases Finset.mem_image.1 hx with ⟨q, hq, rfl⟩
    have hq2 := hsub hq
    rw [grid, Finset.mem_product] at hq2
    exact hq2.2
  calc s.card = (s.image Prod.snd).card := (Finset.card_image_of_injOn hinj).symm
    _ ≤ m := by simpa using Finset.card_le_card himg

theorem exists_assignment_extension {n m : ℕ} :
    ∀ (d : ℕ) (S : Finset (ℕ × ℕ)), S ⊆ grid n m → IsMatching S →
      S.card ≤ min n m → min n m - S.card = d →
      ∃ T, S ⊆ T ∧ IsAssignment n m T := by
  intro d
  induction d with
  | zero =>
      intro S hsub hm hle h0
      exact ⟨S, Finset.Subset.refl S, hsub, hm, by omega⟩
  | succ d ih =>
      intro S hsub hm hle hd
      have hlt : S.card < min n m := by omega
      have hrow : ¬ (Finset.range n ⊆ S.image Prod.fst) := by
        intro hcon
        have h1 := Finset.card_le_card hcon
        have h2 : (S.image Prod.fst).card ≤ S.card := Finset.card_image_le
        simp only [Finset.card_range] at h1
        omega
      obtain ⟨g, hg, hgn⟩ := Finset.not_subset.1 hrow
      have hcol : ¬ (Finset.range m ⊆ S.image Prod.snd) := by
        intro hcon
        have h1 := Finset.card_le_card hcon
        have h2 : (S.image Prod.snd).card ≤ S.card := Finset.card_image_le
        simp only [Finset.card_range] at h1
        omega
      obtain ⟨p, hp, hpn⟩ := Finset.not_subset.1 hcol
      have hnotmem : (g, p) ∉ S := fun hmem =>
        hgn (Finset.mem_image_of_mem Prod.fst hmem)
      have hsub2 : insert (g, p) S ⊆ grid n m := by
        intro q hq
        rcases Finset.mem_insert.1 hq with rfl | hq
        · rw [grid, Finset.mem_product]; exact ⟨hg, hp⟩
        · exact hsub hq
      have hm2 : IsMatching (insert (g, p) S) := by
        intro a ha b hb hab
        rcases Finset.mem_insert.1 ha with rfl | ha <;>
          rcases Finset.mem_insert.1 hb with rfl | hb
        · rfl
        · exfalso
          rcases hab with h1 | h1
          · exact hgn (Finset.mem_image.2 ⟨b, hb, h1.symm⟩)
          · exact hpn (Finset.mem_image.2 ⟨b, hb, h1.symm⟩)
        · exfalso
          rcases hab with h1 | h1
          · exact hgn (Finset.mem_image.2 ⟨a, ha, h1⟩)
          · exact hpn (Finset.mem_image.2 ⟨a, ha, h1⟩)
        · exact hm a ha b hb hab
      have hcard2 : (insert (g, p) S).card = S.card + 1 :=
        Finset.card_insert_of_not_mem hnotmem
      obtain ⟨T, hT1, hT2⟩ := ih (insert (g, p) S) hsub2 hm2 (by omega) (by omega)
      exact ⟨T, le_trans (Finset.subset_insert _ _) hT1, hT2⟩

theorem mem_aboveMatchings {n m : ℕ} {io : ℕ → ℕ → ℚ} {th : ℚ}
    {S : Finset (ℕ × ℕ)} :
    S ∈ aboveMatchings n m io th ↔
      S ⊆ grid n m ∧ IsMatching S ∧ ∀ q ∈ S, th < io q.1 q.2 := by
  unfold aboveMatchings
  rw [Finset.mem_filter, Finset.mem_powerset]

theorem filter_card_le_maxAbove {n m : ℕ} {io : ℕ → ℕ → ℚ} {th : ℚ}
    {s : Finset (ℕ × ℕ)} (hsub : s ⊆ grid n m) (hm : IsMatching s) :
    (s.filter (fun q => th < io q.1 q.2)).card ≤ maxAbove n m io th := by
  apply Finset.le_sup
  apply mem_aboveMatchings.2
  refine ⟨le_trans (Finset.filter_subset _ _) hsub,
    IsMatching.subset (Finset.filter_subset _ _) hm, ?_⟩
  intro q hq
  exact (Finset.mem_filter.1 hq).2

theorem maxAbove_le_min (n m : ℕ) (io : ℕ → ℕ → ℚ) (th : ℚ) :
    maxAbove n m io th ≤ min n m := by
  apply Finset.sup_le
  intro S hS
  rw [mem_aboveMatchings] at hS
  exact le_min (matching_card_le_left hS.1 hS.2.1)
    (matching_card_le_right hS.1 hS.2.1)

theorem exists_maxAbove_witness (n m : ℕ) (io : ℕ → ℕ → ℚ) (th : ℚ) :
    ∃ S ∈ aboveMatchings n m io th, S.card = maxAbove n m io th := by
  have hne : (aboveMatchings n m io th).Nonempty := by
    refine ⟨∅, mem_aboveMatchings.2 ⟨Finset.empty_subset _, matching_empty, ?_⟩⟩
    intro q hq
    exact absurd hq (Finset.not_mem_empty q)
  obtain ⟨S, hS, hEq⟩ := Finset.exists_mem_eq_sup _ hne Finset.card
  exact ⟨S, hS, hEq.symm⟩

theorem maxAbove_antitone (n m : ℕ) (io : ℕ → ℕ → ℚ) {th1 th2 : ℚ}
    (h : th1 ≤ th2) : maxAbove n m io th2 ≤ maxAbove n m io th1 := by
  apply Finset.sup_mono
  intro S hS
  rw [mem_aboveMatchings] at *
  exact ⟨hS.1, hS.2.1, fun q hq => lt_of_le_of_lt h (hS.2.2 q hq)⟩

end SegEval

namespace SegEval

theorem exists_low_cost_assignment (n m : ℕ) (io : ℕ → ℕ → ℚ) (th : ℚ)
    (h0 : ∀ g p, 0 ≤ io g p) :
    ∃ B, IsAssignment n m B ∧
      totalCost (matchCost (min n m) io th) B ≤ -(maxAbove n m io th : ℚ) := by
  obtain ⟨S, hS, hcard⟩ := exists_maxAbove_witness n m io th
  rw [mem_aboveMatchings] at hS
  have hSle : S.card ≤ min n m := hcard ▸ maxAbove_le_min n m io th
  obtain ⟨T, hST, hT⟩ :=
    exists_assignment_extension (min n m - S.card) S hS.1 hS.2.1 hSle rfl
  refine ⟨T, hT, ?_⟩
  have hbound : ∀ q ∈ T,
      matchCost (min n m) io th q ≤ if q ∈ S then (-1 : ℚ) else 0 := by
    intro q hq
    have hdiv : 0 ≤ io q.1 q.2 / (2 * ((min n m : ℕ) : ℚ)) :=
      div_nonneg (h0 _ _) (by positivity)
    unfold matchCost
    by_cases hmem : q ∈ S
    · rw [if_pos hmem, if_pos (hS.2.2 q hmem)]
      linarith
    · rw [if_neg hmem]
      split_ifs with h <;> linarith
  calc totalCost (matchCost (min n m) io th) T
      ≤ ∑ q ∈ T, (if q ∈ S then (-1 : ℚ) else 0) := Finset.sum_le_sum hbound
    _ = ∑ q ∈ T ∩ S, (-1 : ℚ) := Finset.sum_ite_mem T S _
    _ = -(S.card : ℚ) := by
        rw [Finset.inter_eq_right.2 hST]
        simp
    _ = -(maxAbove n m io th : ℚ) := by rw [hcard]

theorem totalCost_lower (n m : ℕ) (io : ℕ → ℕ → ℚ) (th : ℚ)
    (h1 : ∀ g p, io g p ≤ 1) (hk : 0 < min n m)
    {s : Finset (ℕ × ℕ)} (hs : IsAssignment n m s) :
    -(((s.filter (fun q => th < io q.1 q.2)).card : ℚ)) - 1/2 ≤
      totalCost (matchCost (min n m) io th) s := by
  have hkQ : (0 : ℚ) < ((min n m : ℕ) : ℚ) := by exact_mod_cast hk
  have hpair : ∀ q ∈ s,
      -(if th < io q.1 q.2 then (1 : ℚ) else 0) - 1 / (2 * ((min n m : ℕ) : ℚ)) ≤
        matchCost (min n m) io th q := by
    intro q hq
    unfold matchCost
    have hio : io q.1 q.2 ≤ 1 := h1 _ _
    have hden : (0 : ℚ) < 2 * ((min n m : ℕ) : ℚ) := by linarith
    have hdd : io q.1 q.2 / (2 * ((min n m : ℕ) : ℚ)) ≤ 1 / (2 * ((min n m : ℕ) : ℚ)) :=
      (div_le_div_iff_of_pos_right hden).2 hio
    linarith
  have hsum := Finset.sum_le_sum hpair
  have hA : ∑ q ∈ s, (-(if th < io q.1 q.2 then (1 : ℚ) else 0)
      - 1 / (2 * ((min n m : ℕ) : ℚ)))
      = -(((s.filter (fun q => th < io q.1 q.2)).card : ℚ))
        - (s.card : ℚ) / (2 * ((min n m : ℕ) : ℚ)) := by
    rw [Finset.sum_sub_distrib, Finset.sum_neg_distrib]
    rw [Finset.sum_boole]
    rw [Finset.sum_const]
    push_cast
    ring
  have hcardk : s.card = min n m := hs.2.2
  have hhalf : (s.card : ℚ) / (2 * ((min n m : ℕ) : ℚ)) = 1/2 := by
    rw [hcardk, div_eq_div_iff (by linarith) (by norm_num : (2:ℚ) ≠ 0)]
    ring
  rw [hA, hhalf] at hsum
  exact hsum

theorem tp_eq_maxAbove_of_optimal (n m : ℕ) (io : ℕ → ℕ → ℚ) (th : ℚ)
    (h0 : ∀ g p, 0 ≤ io g p) (h1 : ∀ g p, io g p ≤ 1) (hk : 0 < min n m)
    {s : Finset (ℕ × ℕ)} (hs : IsAssignment n m s)
    (hopt : ∀ t ∈ (grid n m).powerset, IsAssignment n m t →
      totalCost (matchCost (min n m) io th) s ≤
        totalCost (matchCost (min n m) io th) t) :
    (s.filter (fun q => th < io q.1 q.2)).card = maxAbove n m io th := by
  apply le_antisymm
  · exact filter_card_le_maxAbove hs.1 hs.2.1
  · obtain ⟨B, hB, hBcost⟩ := exists_low_cost_assignment n m io th h0
    have h2 := hopt B (Finset.mem_powerset.2 hB.1) hB
    have h3 := totalCost_lower n m io th h1 hk hs
    have h4 : -(((s.filter (fun q => th < io q.1 q.2)).card : ℚ)) - 1/2 ≤
        -(maxAbove n m io th : ℚ) := le_trans h3 (le_trans h2 hBcost)
    by_contra hcon
    push_neg at hcon
    have h5 : ((s.filter (fun q => th < io q.1 q.2)).card : ℚ) + 1 ≤
        (maxAbove n m io th : ℚ) := by exact_mod_cast hcon
    linarith

theorem exists_optimal_assignment (n m : ℕ) (c : ℕ × ℕ → ℚ) :
    ∃ s, IsAssignment n m s ∧ ∀ t ∈ (grid n m).powerset,
      IsAssignment n m t → totalCost c s ≤ totalCost c t := by
  have hne : ((grid n m).powerset.filter (IsAssignment n m)).Nonempty := by
    obtain ⟨T, _, hT⟩ := @exists_assignment_extension n m
      (min n m - 0) ∅ (Finset.empty_subset _) matching_empty (Nat.zero_le _)
      (by simp)
    exact ⟨T, Finset.mem_filter.2 ⟨Finset.mem_powerset.2 hT.1, hT⟩⟩
  obtain ⟨s, hsmem, hsmin⟩ := Finset.exists_min_image _ (totalCost c) hne
  rw [Finset.mem_filter] at hsmem
  exact ⟨s, hsmem.2, fun t ht hta => hsmin t (Finset.mem_filter.2 ⟨ht, hta⟩)⟩

end SegEval

namespace SegEval

theorem tpWith_le (gtF predF : List ℕ) (th : ℚ) {s : Finset (ℕ × ℕ)}
    (hs : IsAssignment (numLabels gtF) (numLabels predF) s) :
    tpWith gtF predF th s ≤ numMatches gtF predF := by
  unfold tpWith
  split_ifs with hb
  · calc (s.filter (fun q => th < iouM gtF predF q.1 q.2)).card
        ≤ s.card := Finset.card_le_card (Finset.filter_subset _ _)
      _ = min (numLabels gtF) (numLabels predF) := hs.2.2
  · exact Nat.zero_le _

/-- C1: whenever the assignment branch runs (num_matches > 0 and the maximum
IoU strictly exceeds the threshold), the number of true positives equals the
maximum cardinality of a one-to-one gt/pred matching restricted to pairs
whose IoU strictly exceeds the threshold, for every minimum-cost assignment
the solver may return: every qualifying pair's cost dominates any sum of
tie-break terms. -/
theorem c1_tp_eq_max_above_matching (gtF predF : List ℕ) (th : ℚ)
    (s : Finset (ℕ × ℕ)) (hk : 0 < numMatches gtF predF)
    (hmax : th < maxIoU gtF predF) (hopt : IsOptimalFor gtF predF th s) :
    tpWith gtF predF th s =
      maxAbove (numLabels gtF) (numLabels predF) (iouM gtF predF) th := by
  rw [tpWith, if_pos (show branchCond gtF predF th from ⟨hk, hmax⟩)]
  exact tp_eq_maxAbove_of_optimal (numLabels gtF) (numLabels predF)
    (iouM gtF predF) th (iouM_nonneg gtF predF) (iouM_le_one gtF predF)
    hk hopt.1 hopt.2

theorem c1_witness :
    0 < numMatches [1, 1, 2] [1, 2, 2] ∧
      (1/3 : ℚ) < maxIoU [1, 1, 2] [1, 2, 2] ∧
      IsOptimalFor [1, 1, 2] [1, 2, 2] (1/3) {(0, 0), (1, 1)} ∧
      tpWith [1, 1, 2] [1, 2, 2] (1/3) {(0, 0), (1, 1)} =
        maxAbove (numLabels [1, 1, 2]) (numLabels [1, 2, 2])
          (iouM [1, 1, 2] [1, 2, 2]) (1/3) :=
  ⟨by with_unfolding_all decide, by with_unfolding_all decide, by with_unfolding_all decide,
    c1_tp_eq_max_above_matching [1, 1, 2] [1, 2, 2] (1/3) {(0, 0), (1, 1)}
      (by with_unfolding_all decide) (by with_unfolding_all decide) (by with_unfolding_all decide)⟩

/-- C4: for fixed inputs the true-positive count is monotonically
non-increasing in the threshold, over every pair of optimal assignments the
solver may return at the two thresholds. -/
theorem c4_tp_antitone_in_threshold (gtF predF : List ℕ) {th1 th2 : ℚ}
    (h : th1 ≤ th2) (s1 s2 : Finset (ℕ × ℕ))
    (h1 : IsOptimalFor gtF predF th1 s1)
    (h2 : IsOptimalFor gtF predF th2 s2) :
    tpWith gtF predF th2 s2 ≤ tpWith gtF predF th1 s1 := by
  by_cases hb2 : branchCond gtF predF th2
  · have hb1 : branchCond gtF predF th1 := ⟨hb2.1, lt_of_le_of_lt h hb2.2⟩
    rw [tpWith, if_pos hb2, tpWith, if_pos hb1]
    calc (s2.filter (fun q => th2 < iouM gtF predF q.1 q.2)).card
        = maxAbove (numLabels gtF) (numLabels predF) (iouM gtF predF) th2 :=
          tp_eq_maxAbove_of_optimal _ _ _ _ (iouM_nonneg gtF predF)
            (iouM_le_one gtF predF) hb2.1 h2.1 h2.2
      _ ≤ maxAbove (numLabels gtF) (numLabels predF) (iouM gtF predF) th1 :=
          maxAbove_antitone _ _ _ h
      _ = (s1.filter (fun q => th1 < iouM gtF predF q.1 q.2)).card :=
          (tp_eq_maxAbove_of_optimal _ _ _ _ (iouM_nonneg gtF predF)
            (iouM_le_one gtF predF) hb2.1 h1.1 h1.2).symm
  · rw [tpWith, if_neg hb2]
    exact Nat.zero_le _

theorem c4_witness :
    (1/3 : ℚ) ≤ 1/2 ∧
      IsOptimalFor [1, 2] [1, 2] (1/3) {(0, 0), (1, 1)} ∧
      IsOptimalFor [1, 2] [1, 2] (1/2) {(0, 0), (1, 1)} ∧
      tpWith [1, 2] [1, 2] (1/2) {(0, 0), (1, 1)} ≤
        tpWith [1, 2] [1, 2] (1/3) {(0, 0), (1, 1)} :=
  ⟨by norm_num, by with_unfolding_all decide, by with_unfolding_all decide,
    c4_tp_antitone_in_threshold [1, 2] [1, 2] (by norm_num)
      {(0, 0), (1, 1)} {(0, 0), (1, 1)} (by with_unfolding_all decide) (by with_unfolding_all decide)⟩

/-- C9: whenever the assignment branch is reached, the solver has at least
one admissible output, and every admissible output consists of exactly
num_matches pairs with rows and columns each used at most once (so the
assertion num_matches == len(gt_ind) == len(pred_ind) never fails). -/
theorem c9_solver_output_wellformed (gtF predF : List ℕ) (th : ℚ)
    (_hb : branchCond gtF predF th) :
    (∃ s, IsOptimalFor gtF predF th s) ∧
      ∀ s, IsOptimalFor gtF predF th s →
        s.card = numMatches gtF predF ∧ IsMatching s := by
  refine ⟨?_, ?_⟩
  · obtain ⟨s, hs, hopt⟩ := exists_optimal_assignment (numLabels gtF)
      (numLabels predF) (costsOf gtF predF th)
    exact ⟨s, hs, hopt⟩
  · intro s hs
    exact ⟨hs.1.2.2, hs.1.2.1⟩

theorem c9_witness :
    branchCond [1] [1] (1/3) ∧
      ((∃ s, IsOptimalFor [1] [1] (1/3) s) ∧
        ∀ s, IsOptimalFor [1] [1] (1/3) s →
          s.card = numMatches [1] [1] ∧ IsMatching s) :=
  ⟨by with_unfolding_all decide, c9_solver_output_wellformed [1] [1] (1/3) (by with_unfolding_all decide)⟩

/-- C10: for every pair of inputs and every threshold, for every optimal
assignment: 0 <= tp <= min(num_gt, num_pred), fp and fn are nonnegative,
precision and recall lie in [0, 1], and with no predicted (resp. ground
truth) instances the max(1, ...) guard makes precision (resp. recall) 0
instead of an error. -/
theorem c10_output_invariants (gtF predF : List ℕ) (th : ℚ)
    (s : Finset (ℕ × ℕ)) (hopt : IsOptimalFor gtF predF th s) :
    tpWith gtF predF th s ≤ numMatches gtF predF ∧
      0 ≤ fpWith gtF predF th s ∧ 0 ≤ fnWith gtF predF th s ∧
      0 ≤ precisionWith gtF predF th s ∧ precisionWith gtF predF th s ≤ 1 ∧
      0 ≤ recallWith gtF predF th s ∧ recallWith gtF predF th s ≤ 1 ∧
      (numLabels predF = 0 → precisionWith gtF predF th s = 0) ∧
      (numLabels gtF = 0 → recallWith gtF predF th s = 0) := by
  have htp : tpWith gtF predF th s ≤ numMatches gtF predF :=
    tpWith_le gtF predF th hopt.1
  have htpm : tpWith gtF predF th s ≤ numLabels predF :=
    le_trans htp (min_le_right _ _)
  have htpn : tpWith gtF predF th s ≤ numLabels gtF :=
    le_trans htp (min_le_left _ _)
  have hfp : 0 ≤ fpWith gtF predF th s := by
    unfold fpWith; omega
  have hfn : 0 ≤ fnWith gtF predF th s := by
    unfold fnWith; omega
  have hfpsum : (tpWith gtF predF th s : ℤ) + fpWith gtF predF th s =
      (numLabels predF : ℤ) := by unfold fpWith; ring
  have hfnsum : (tpWith gtF predF th s : ℤ) + fnWith gtF predF th s =
      (numLabels gtF : ℤ) := by unfold fnWith; ring
  have hprec0 : 0 ≤ precisionWith gtF predF th s := by
    unfold precisionWith
    apply div_nonneg (by positivity)
    have h1 : (1 : ℤ) ≤ max 1 ((tpWith gtF predF th s : ℤ) + fpWith gtF predF th s) :=
      le_max_left _ _
    exact_mod_cast le_trans zero_le_one h1
  have hrec0 : 0 ≤ recallWith gtF predF th s := by
    unfold recallWith
    apply div_nonneg (by positivity)
    have h1 : (1 : ℤ) ≤ max 1 ((tpWith gtF predF th s : ℤ) + fnWith gtF predF th s) :=
      le_max_left _ _
    exact_mod_cast le_trans zero_le_one h1
  have hprec1 : precisionWith gtF predF th s ≤ 1 := by
    unfold precisionWith
    rw [div_le_one]
    · rw [hfpsum]
      have h2 : ((numLabels predF : ℤ) : ℚ) ≤
          ((max 1 (numLabels predF : ℤ) : ℤ) : ℚ) := by
        exact_mod_cast le_max_right (1 : ℤ) (numLabels predF : ℤ)
      have h3 : (tpWith gtF predF th s : ℚ) ≤ ((numLabels predF : ℤ) : ℚ) := by
        exact_mod_cast htpm
      linarith
    · rw [hfpsum]
      have h1 : (1 : ℤ) ≤ max 1 (numLabels predF : ℤ) := le_max_left _ _
      have : (1 : ℚ) ≤ ((max 1 (numLabels predF : ℤ) : ℤ) : ℚ) := by exact_mod_cast h1
      linarith
  have hrec1 : recallWith gtF predF th s ≤ 1 := by
    unfold recallWith
    rw [div_le_one]
    · rw [hfnsum]
      have h2 : ((numLabels gtF : ℤ) : ℚ) ≤
          ((max 1 (numLabels gtF : ℤ) : ℤ) : ℚ) := by
        exact_mod_cast le_max_right (1 : ℤ) (numLabels gtF : ℤ)
      have h3 : (tpWith gtF predF th s : ℚ) ≤ ((numLabels gtF : ℤ) : ℚ) := by
        exact_mod_cast htpn
      linarith
    · rw [hfnsum]
      have h1 : (1 : ℤ) ≤ max 1 (numLabels gtF : ℤ) := le_max_left _ _
      have : (1 : ℚ) ≤ ((max 1 (numLabels gtF : ℤ) : ℤ) : ℚ) := by exact_mod_cast h1
      linarith
  refine ⟨htp, hfp, hfn, hprec0, hprec1, hrec0, hrec1, ?_, ?_⟩
  · intro hm0
    have htp0 : tpWith gtF predF th s = 0 := by omega
    unfold precisionWith
    rw [htp0]
    simp
  · intro hn0
    have htp0 : tpWith gtF predF th s = 0 := by omega
    unfold recallWith
    rw [htp0]
    simp

theorem c10_witness :
    IsOptimalFor [1, 2] [0, 2] (1/2) {(1, 0)} ∧
      (tpWith [1, 2] [0, 2] (1/2) {(1, 0)} ≤ numMatches [1, 2] [0, 2] ∧
        0 ≤ fpWith [1, 2] [0, 2] (1/2) {(1, 0)} ∧
        0 ≤ fnWith [1, 2] [0, 2] (1/2) {(1, 0)} ∧
        0 ≤ precisionWith [1, 2] [0, 2] (1/2) {(1, 0)} ∧
        precisionWith [1, 2] [0, 2] (1/2) {(1, 0)} ≤ 1 ∧
        0 ≤ recallWith [1, 2] [0, 2] (1/2) {(1, 0)} ∧
        recallWith [1, 2] [0, 2] (1/2) {(1, 0)} ≤ 1 ∧
        (numLabels [0, 2] = 0 → precisionWith [1, 2] [0, 2] (1/2) {(1, 0)} = 0) ∧
        (numLabels [1, 2] = 0 → recallWith [1, 2] [0, 2] (1/2) {(1, 0)} = 0)) :=
  ⟨by with_unfolding_all decide, c10_output_invariants [1, 2] [0, 2] (1/2) {(1, 0)} (by with_unfolding_all decide)⟩

end SegEval

namespace SegEval

theorem numLabels_eq_zero {xs : List ℕ} (h : ∀ x ∈ xs, x = 0) :
    numLabels xs = 0 := by
  rw [numLabels_eq_card, Finset.card_eq_zero, Finset.eq_empty_iff_forall_not_mem]
  intro a ha
  rw [labelSet, Finset.mem_erase, List.mem_toFinset] at ha
  exact ha.1 (h a ha.2)

theorem evaluateImg_of_ok (gt pred : List (List ℕ)) (th : ℚ)
    (s : Finset (ℕ × ℕ)) (hlen : gt.flatten.length = pred.flatten.length)
    (hd : (tpWith gt.flatten pred.flatten th s : ℤ) +
      fpWith gt.flatten pred.flatten th s +
      fnWith gt.flatten pred.flatten th s ≠ 0) :
    evaluateImg gt pred th s =
      .ok (precisionWith gt.flatten pred.flatten th s,
        recallWith gt.flatten pred.flatten th s,
        (tpWith gt.flatten pred.flatten th s : ℚ) /
          (((tpWith gt.flatten pred.flatten th s : ℤ) +
            fpWith gt.flatten pred.flatten th s +
            fnWith gt.flatten pred.flatten th s : ℤ) : ℚ)) := by
  rw [evaluateImg, if_pos hlen, evalResultFlat, accuracyWith, if_neg hd]
  rfl

/-- C7: the claim states the intended behaviour; the code instead hits a
ZeroDivisionError.  On all-background inputs of equal size, evaluate
computes tp = fp = fn = 0 and the accuracy division tp / (tp + fp + fn)
raises (modelled as the divByZero error) instead of applying an explicit
zero-denominator policy. -/
theorem c7_all_background_zero_division (gt pred : List (List ℕ)) (th : ℚ)
    (s : Finset (ℕ × ℕ)) (hgt : ∀ x ∈ gt.flatten, x = 0)
    (hpred : ∀ x ∈ pred.flatten, x = 0)
    (hlen : gt.flatten.length = pred.flatten.length) :
    evaluateImg gt pred th s = .error .divByZero ∧
      tpWith gt.flatten pred.flatten th s = 0 ∧
      fpWith gt.flatten pred.flatten th s = 0 ∧
      fnWith gt.flatten pred.flatten th s = 0 := by
  have hn : numLabels gt.flatten = 0 := numLabels_eq_zero hgt
  have hm : numLabels pred.flatten = 0 := numLabels_eq_zero hpred
  have hb : ¬ branchCond gt.flatten pred.flatten th := by
    intro hc
    have h1 := hc.1
    rw [numMatches, hn] at h1
    omega
  have htp : tpWith gt.flatten pred.flatten th s = 0 := by
    rw [tpWith, if_neg hb]
  have hfp : fpWith gt.flatten pred.flatten th s = 0 := by
    rw [fpWith, htp, hm]
    norm_num
  have hfn : fnWith gt.flatten pred.flatten th s = 0 := by
    rw [fnWith, htp, hn]
    norm_num
  refine ⟨?_, htp, hfp, hfn⟩
  have hacc : accuracyWith gt.flatten pred.flatten th s = none := by
    rw [accuracyWith, if_pos]
    rw [htp, hfp, hfn]
    norm_num
  rw [evaluateImg, if_pos hlen, evalResultFlat, hacc]
  rfl

theorem c7_witness :
    (∀ x ∈ ([[0]] : List (List ℕ)).flatten, x = 0) ∧
      (([[0]] : List (List ℕ)).flatten.length =
        ([[0]] : List (List ℕ)).flatten.length) ∧
      (evaluateImg [[0]] [[0]] (1/2) ∅ = .error .divByZero ∧
        tpWith [0] [0] (1/2) ∅ = 0 ∧ fpWith [0] [0] (1/2) ∅ = 0 ∧
        fnWith [0] [0] (1/2) ∅ = 0) :=
  ⟨by decide, rfl,
    c7_all_background_zero_division [[0]] [[0]] (1/2) ∅ (by decide) (by decide) rfl⟩

/-- C8 (amended): evaluate surfaces the array-stacking error exactly when
the two flattened label arrays have different lengths; for images of equal
shape the stacking never fails (though the accuracy division still can). -/
theorem c8_stack_error_iff_size_mismatch (gt pred : List (List ℕ)) (th : ℚ)
    (s : Finset (ℕ × ℕ)) :
    evaluateImg gt pred th s = .error .stackFail ↔
      gt.flatten.length ≠ pred.flatten.length := by
  rw [evaluateImg]
  split_ifs with h
  · constructor
    · intro hc
      cases hr : evalResultFlat gt.flatten pred.flatten th s <;>
        rw [hr] at hc <;> simp at hc
    · intro hc
      exact absurd h hc
  · exact iff_of_true rfl h

/-- C8 counterexample: two label images of different shapes (1 x 2 versus
2 x 1) but equal pixel count are evaluated with no error at all. -/
theorem c8_counterexample :
    shapeOf [[1, 2]] ≠ shapeOf [[1], [2]] ∧
      IsOptimalFor [1, 2] [1, 2] (1/2) {(0, 0), (1, 1)} ∧
      evaluateImg [[1, 2]] [[1], [2]] (1/2) {(0, 0), (1, 1)} = .ok (1, 1, 1) := by
  with_unfolding_all decide

/-- C2: on the worked example the evaluator returns precision = recall =
accuracy = 1, with tp = 2 (instance 1 has IoU 1, instance 2 has IoU 3/4),
fp = fn = 0, for every optimal assignment the solver may return. -/
theorem c2_worked_example (s : Finset (ℕ × ℕ))
    (hopt : IsOptimalFor [1, 1, 0, 0, 2, 2, 0, 2, 2]
      [1, 1, 0, 0, 0, 2, 0, 2, 2] (1/2) s) :
    evaluateImg [[1, 1, 0], [0, 2, 2], [0, 2, 2]]
        [[1, 1, 0], [0, 0, 2], [0, 2, 2]] (1/2) s = .ok (1, 1, 1) ∧
      tpWith [1, 1, 0, 0, 2, 2, 0, 2, 2] [1, 1, 0, 0, 0, 2, 0, 2, 2] (1/2) s = 2 ∧
      fpWith [1, 1, 0, 0, 2, 2, 0, 2, 2] [1, 1, 0, 0, 0, 2, 0, 2, 2] (1/2) s = 0 ∧
      fnWith [1, 1, 0, 0, 2, 2, 0, 2, 2] [1, 1, 0, 0, 0, 2, 0, 2, 2] (1/2) s = 0 ∧
      iouM [1, 1, 0, 0, 2, 2, 0, 2, 2] [1, 1, 0, 0, 0, 2, 0, 2, 2] 0 0 = 1 ∧
      iouM [1, 1, 0, 0, 2, 2, 0, 2, 2] [1, 1, 0, 0, 0, 2, 0, 2, 2] 1 1 = 3/4 := by
  have hbranch : branchCond [1, 1, 0, 0, 2, 2, 0, 2, 2]
      [1, 1, 0, 0, 0, 2, 0, 2, 2] (1/2) := by with_unfolding_all decide
  have hn : numLabels [1, 1, 0, 0, 2, 2, 0, 2, 2] = 2 := by decide
  have hm : numLabels [1, 1, 0, 0, 0, 2, 0, 2, 2] = 2 := by decide
  have htp : tpWith [1, 1, 0, 0, 2, 2, 0, 2, 2]
      [1, 1, 0, 0, 0, 2, 0, 2, 2] (1/2) s = 2 := by
    rw [tpWith, if_pos hbranch,
      tp_eq_maxAbove_of_optimal (numLabels [1, 1, 0, 0, 2, 2, 0, 2, 2])
        (numLabels [1, 1, 0, 0, 0, 2, 0, 2, 2])
        (iouM [1, 1, 0, 0, 2, 2, 0, 2, 2] [1, 1, 0, 0, 0, 2, 0, 2, 2]) (1/2)
        (iouM_nonneg _ _) (iouM_le_one _ _) hbranch.1 hopt.1 hopt.2]
    with_unfolding_all decide
  have hfp : fpWith [1, 1, 0, 0, 2, 2, 0, 2, 2]
      [1, 1, 0, 0, 0, 2, 0, 2, 2] (1/2) s = 0 := by
    rw [fpWith, htp, hm]
    norm_num
  have hfn : fnWith [1, 1, 0, 0, 2, 2, 0, 2, 2]
      [1, 1, 0, 0, 0, 2, 0, 2, 2] (1/2) s = 0 := by
    rw [fnWith, htp, hn]
    norm_num
  have hprec : precisionWith [1, 1, 0, 0, 2, 2, 0, 2, 2]
      [1, 1, 0, 0, 0, 2, 0, 2, 2] (1/2) s = 1 := by
    rw [precisionWith, htp, hfp]
    norm_num
  have hrec : recallWith [1, 1, 0, 0, 2, 2, 0, 2, 2]
      [1, 1, 0, 0, 0, 2, 0, 2, 2] (1/2) s = 1 := by
    rw [recallWith, htp, hfn]
    norm_num
  have hflat1 : ([[1, 1, 0], [0, 2, 2], [0, 2, 2]] : List (List ℕ)).flatten =
      [1, 1, 0, 0, 2, 2, 0, 2, 2] := rfl
  have hflat2 : ([[1, 1, 0], [0, 0, 2], [0, 2, 2]] : List (List ℕ)).flatten =
      [1, 1, 0, 0, 0, 2, 0, 2, 2] := rfl
  have hok := evaluateImg_of_ok [[1, 1, 0], [0, 2, 2], [0, 2, 2]]
    [[1, 1, 0], [0, 0, 2], [0, 2, 2]] (1/2) s rfl
    (by rw [hflat1, hflat2, htp, hfp, hfn]; norm_num)
  refine ⟨?_, htp, hfp, hfn, by with_unfolding_all decide, by with_unfolding_all decide⟩
  rw [hok, hflat1, hflat2, hprec, hrec, htp, hfp, hfn]
  norm_num

theorem c2_witness :
    IsOptimalFor [1, 1, 0, 0, 2, 2, 0, 2, 2] [1, 1, 0, 0, 0, 2, 0, 2, 2]
        (1/2) {(0, 0), (1, 1)} ∧
      evaluateImg [[1, 1, 0], [0, 2, 2], [0, 2, 2]]
        [[1, 1, 0], [0, 0, 2], [0, 2, 2]] (1/2) {(0, 0), (1, 1)} = .ok (1, 1, 1) :=
  ⟨by with_unfolding_all decide,
    (c2_worked_example {(0, 0), (1, 1)} (by with_unfolding_all decide)).1⟩

end SegEval

namespace SegEval

theorem zip_self (l : List ℕ) : l.zip l = l.map (fun a => (a, a)) := by
  induction l with
  | nil => rfl
  | cons a t ih => rw [List.zip_cons_cons, List.map_cons, ih]

theorem overlapC_self_diag (R : List ℕ) (v : ℕ) :
    overlapC R R v v = R.count v := by
  rw [overlapC, zip_self, List.countP_map, List.count_eq_countP]
  apply List.countP_congr
  intro x _
  simp [Function.comp]

theorem overlapC_self_off (R : List ℕ) {g p : ℕ} (h : g ≠ p) :
    overlapC R R g p = 0 := by
  rw [overlapC, zip_self, List.countP_map]
  apply List.countP_eq_zero.2
  intro a _
  simp only [Function.comp_apply, decide_eq_true_eq]
  rintro ⟨rfl, rfl⟩
  exact h rfl

theorem count_relabel_pos {xs : List ℕ} {v : ℕ} (h1 : 1 ≤ v)
    (h2 : v ≤ (labelSet xs).card) : 0 < (relabelSeq xs).count v := by
  rw [List.count_pos_iff]
  have hlen : (sortedLabels xs).length = (labelSet xs).card :=
    length_sortedLabels xs
  have hlt : v - 1 < (sortedLabels xs).length := by omega
  have hxmem : (sortedLabels xs)[v - 1] ∈ sortedLabels xs :=
    List.getElem_mem hlt
  have hidx : (sortedLabels xs).indexOf (sortedLabels xs)[v - 1] = v - 1 :=
    List.indexOf_getElem (sortedLabels_nodup xs) _ hlt
  obtain ⟨hxs, hx0⟩ := mem_sortedLabels.1 hxmem
  have hval : relabelFun xs (sortedLabels xs)[v - 1] = v := by
    rw [relabelFun, if_neg hx0, hidx]
    omega
  exact hval ▸ List.mem_map_of_mem (relabelFun xs) hxs

theorem iouId_self_eq_one {xs : List ℕ} {v : ℕ}
    (hc : 0 < (relabelSeq xs).count v) : iouId xs xs v v = 1 := by
  rw [iouId, overlapC_self_diag, add_sub_cancel_right]
  exact div_self (by exact_mod_cast Nat.pos_iff_ne_zero.1 hc)

theorem iouM_self_eq_one {xs : List ℕ} {g : ℕ}
    (hg : g < (labelSet xs).card) : iouM xs xs g g = 1 :=
  iouId_self_eq_one (count_relabel_pos (by omega) (by omega))

/-- C5 (amended with at least one instance): evaluating an image against
itself at the default threshold yields tp = k (the number of distinct
nonzero labels), fp = fn = 0 and precision = recall = accuracy = 1, for
every optimal assignment the solver may return. -/
theorem c5_perfect_match (L : List (List ℕ)) (s : Finset (ℕ × ℕ))
    (hk : 1 ≤ (labelSet L.flatten).card)
    (hopt : IsOptimalFor L.flatten L.flatten (1/2) s) :
    evaluateImg L L (1/2) s = .ok (1, 1, 1) ∧
      tpWith L.flatten L.flatten (1/2) s = (labelSet L.flatten).card ∧
      fpWith L.flatten L.flatten (1/2) s = 0 ∧
      fnWith L.flatten L.flatten (1/2) s = 0 := by
  have hkn : numLabels L.flatten = (labelSet L.flatten).card :=
    numLabels_eq_card _
  have hk0 : 0 < numLabels L.flatten := by rw [hkn]; exact hk
  -- the diagonal matching
  have hdiag : ((Finset.range (numLabels L.flatten)).image (fun i => (i, i)))
      ∈ aboveMatchings (numLabels L.flatten) (numLabels L.flatten)
        (iouM L.flatten L.flatten) (1/2) := by
    apply mem_aboveMatchings.2
    refine ⟨?_, ?_, ?_⟩
    · intro q hq
      rcases Finset.mem_image.1 hq with ⟨i, hi, rfl⟩
      rw [grid, Finset.mem_product]
      exact ⟨hi, hi⟩
    · intro a ha b hb hab
      rcases Finset.mem_image.1 ha with ⟨i, _, rfl⟩
      rcases Finset.mem_image.1 hb with ⟨j, _, rfl⟩
      simp only at hab
      rcases hab with h1 | h1 <;> rw [h1]
    · intro q hq
      rcases Finset.mem_image.1 hq with ⟨i, hi, rfl⟩
      rw [Finset.mem_range] at hi
      have hi2 : i < (labelSet L.flatten).card := by rw [← hkn]; exact hi
      have := iouM_self_eq_one hi2
      simp only at this ⊢
      rw [this]
      norm_num
  have hdcard : ((Finset.range (numLabels L.flatten)).image
      (fun i => (i, i))).card = numLabels L.flatten := by
    rw [Finset.card_image_of_injOn, Finset.card_range]
    intro a _ b _ hab
    simpa using congrArg Prod.fst hab
  have hmaxab : maxAbove (numLabels L.flatten) (numLabels L.flatten)
      (iouM L.flatten L.flatten) (1/2) = numLabels L.flatten := by
    apply le_antisymm
    · exact le_trans (maxAbove_le_min (numLabels L.flatten)
        (numLabels L.flatten) (iouM L.flatten L.flatten) (1/2))
        (le_of_eq (min_self _))
    · have h : ((Finset.range (numLabels L.flatten)).image
          (fun i => (i, i))).card ≤
          maxAbove (numLabels L.flatten) (numLabels L.flatten)
            (iouM L.flatten L.flatten) (1/2) := Finset.le_sup hdiag
      rw [hdcard] at h
      exact h
  have hbranch : branchCond L.flatten L.flatten (1/2) := by
    constructor
    · rw [numMatches, min_self]
      exact hk0
    · have hk2 : 0 < (labelSet L.flatten).card := by rw [← hkn]; exact hk0
      have h1 : iouM L.flatten L.flatten 0 0 = 1 := iouM_self_eq_one hk2
      have h2 := iouM_le_maxIoU hk0 hk0
      rw [h1] at h2
      linarith
  have htp : tpWith L.flatten L.flatten (1/2) s = (labelSet L.flatten).card := by
    rw [tpWith, if_pos hbranch,
      tp_eq_maxAbove_of_optimal (numLabels L.flatten) (numLabels L.flatten)
        (iouM L.flatten L.flatten) (1/2) (iouM_nonneg _ _) (iouM_le_one _ _)
        hbranch.1 hopt.1 hopt.2, hmaxab, hkn]
  have hfp : fpWith L.flatten L.flatten (1/2) s = 0 := by
    rw [fpWith, htp, hkn]
    ring
  have hfn : fnWith L.flatten L.flatten (1/2) s = 0 := by
    rw [fnWith, htp, hkn]
    ring
  have hkQ : (0 : ℚ) < ((labelSet L.flatten).card : ℚ) := by
    exact_mod_cast hk0.trans_le (le_of_eq hkn)
  have hmaxk : max 1 (((labelSet L.flatten).card : ℕ) : ℤ) =
      ((labelSet L.flatten).card : ℤ) :=
    max_eq_right (by exact_mod_cast hk)
  have hprec : precisionWith L.flatten L.flatten (1/2) s = 1 := by
    rw [precisionWith, htp, hfp, add_zero, hmaxk]
    push_cast
    exact div_self (ne_of_gt hkQ)
  have hrec : recallWith L.flatten L.flatten (1/2) s = 1 := by
    rw [recallWith, htp, hfn, add_zero, hmaxk]
    push_cast
    exact div_self (ne_of_gt hkQ)
  refine ⟨?_, htp, hfp, hfn⟩
  have hne0 : (((labelSet L.flatten).card : ℕ) : ℤ) ≠ 0 := by
    have h1 : (0 : ℤ) < (((labelSet L.flatten).card : ℕ) : ℤ) := by
      exact_mod_cast lt_of_lt_of_le zero_lt_one hk
    exact (ne_of_gt h1)
  have hok := evaluateImg_of_ok L L (1/2) s rfl
    (by rw [htp, hfp, hfn, add_zero, add_zero]; exact hne0)
  rw [hok, hprec, hrec, htp, hfp, hfn]
  rw [add_zero, add_zero]
  push_cast
  rw [div_self (ne_of_gt hkQ)]

theorem c5_witness :
    1 ≤ (labelSet ([[1]] : List (List ℕ)).flatten).card ∧
      IsOptimalFor [1] [1] (1/2) {(0, 0)} ∧
      (evaluateImg [[1]] [[1]] (1/2) {(0, 0)} = .ok (1, 1, 1) ∧
        tpWith [1] [1] (1/2) {(0, 0)} = (labelSet [1]).card ∧
        fpWith [1] [1] (1/2) {(0, 0)} = 0 ∧
        fnWith [1] [1] (1/2) {(0, 0)} = 0) :=
  ⟨by decide, by with_unfolding_all decide,
    c5_perfect_match [[1]] {(0, 0)} (by decide) (by with_unfolding_all decide)⟩

/-- C5 counterexample: on an all-background image (zero distinct nonzero
labels) the claim fails as stated: evaluate does not return precision =
recall = accuracy = 1 but raises the zero-division error. -/
theorem c5_counterexample :
    IsOptimalFor [0] [0] (1/2) ∅ ∧
      evaluateImg [[0]] [[0]] (1/2) ∅ ≠ .ok (1, 1, 1) ∧
      evaluateImg [[0]] [[0]] (1/2) ∅ = .error .divByZero := by
  with_unfolding_all decide

end SegEval

namespace SegEval

theorem axisOk_of_small {d : ℤ} {L : ℕ} (hd : d.natAbs ≤ L) : axisOk d L := by
  left
  rw [lhsLo, lhsHi, rhsLo, rhsHi, pyIdx, pyIdx, pyIdx, pyIdx]
  split_ifs <;> omega

theorem axis_window (d : ℤ) (L : ℕ) (hd : d.natAbs ≤ L) (i : ℕ) (hi : i < L) :
    (lhsLo d L ≤ i ∧ i < lhsHi d L) ↔
      (0 ≤ (i : ℤ) + d ∧ (i : ℤ) + d < (L : ℤ)) := by
  rw [lhsLo, lhsHi, pyIdx, pyIdx]
  split_ifs <;> omega

theorem axis_index (d : ℤ) (L : ℕ) (hd : d.natAbs ≤ L) (i : ℕ) (hi : i < L)
    (hw : 0 ≤ (i : ℤ) + d) :
    rhsLo d L + (i - lhsLo d L) = ((i : ℤ) + d).toNat := by
  rw [rhsLo, lhsLo, pyIdx, pyIdx]
  split_ifs <;> omega

theorem planeAt_small (H W : ℕ) (seg : ℕ → ℕ → ℕ) (d : ℤ × ℤ)
    (hd1 : d.1.natAbs ≤ H) (hd2 : d.2.natAbs ≤ W)
    (i j : ℕ) (hi : i < H) (hj : j < W) :
    planeAt H W seg d i j =
      if 0 ≤ (i : ℤ) + d.1 ∧ (i : ℤ) + d.1 < (H : ℤ) ∧
          0 ≤ (j : ℤ) + d.2 ∧ (j : ℤ) + d.2 < (W : ℤ) ∧
          seg i j = seg ((i : ℤ) + d.1).toNat ((j : ℤ) + d.2).toNat ∧
          0 < seg i j ∧ 0 < seg ((i : ℤ) + d.1).toNat ((j : ℤ) + d.2).toNat
      then 1 else 0 := by
  have hw1 := axis_window d.1 H hd1 i hi
  have hw2 := axis_window d.2 W hd2 j hj
  rw [planeAt]
  by_cases h1 : lhsLo d.1 H ≤ i ∧ i < lhsHi d.1 H ∧
      lhsLo d.2 W ≤ j ∧ j < lhsHi d.2 W
  · rw [if_pos h1]
    have hb1 : 0 ≤ (i : ℤ) + d.1 ∧ (i : ℤ) + d.1 < (H : ℤ) :=
      hw1.1 ⟨h1.1, h1.2.1⟩
    have hb2 : 0 ≤ (j : ℤ) + d.2 ∧ (j : ℤ) + d.2 < (W : ℤ) :=
      hw2.1 ⟨h1.2.2.1, h1.2.2.2⟩
    rw [axis_index d.1 H hd1 i hi hb1.1, axis_index d.2 W hd2 j hj hb2.1]
    apply if_congr _ rfl rfl
    constructor
    · intro h
      exact ⟨hb1.1, hb1.2, hb2.1, hb2.2, h.1, h.2.1, h.2.2⟩
    · intro h
      exact ⟨h.2.2.2.2.1, h.2.2.2.2.2.1, h.2.2.2.2.2.2⟩
  · rw [if_neg h1]
    have : ¬ (0 ≤ (i : ℤ) + d.1 ∧ (i : ℤ) + d.1 < (H : ℤ) ∧
        0 ≤ (j : ℤ) + d.2 ∧ (j : ℤ) + d.2 < (W : ℤ)) := by
      intro hc
      exact h1 ⟨(hw1.2 ⟨hc.1, hc.2.1⟩).1, (hw1.2 ⟨hc.1, hc.2.1⟩).2,
        (hw2.2 ⟨hc.2.2.1, hc.2.2.2⟩).1, (hw2.2 ⟨hc.2.2.1, hc.2.2.2⟩).2⟩
    rw [if_neg]
    intro hc
    exact this ⟨hc.1, hc.2.1, hc.2.2.1, hc.2.2.2.1⟩

/-- C6 (amended: the neighborhood list is nonempty, since on an empty one
the source raises IndexError at dims = nhood.shape[1], and every offset
component is bounded in magnitude by its image dimension, since for larger
offsets the slice assignment can raise a numpy broadcasting error instead,
see the counterexample): compute_affinities succeeds and plane e has value
1 at (i, j) exactly when the displaced pixel is in bounds, the two pixels
carry the same label, and both are non-background; all other in-image
positions, including every position whose displaced pixel falls outside the
image, are 0.  In particular the plane of offset (0, 0) is the indicator of
(seg > 0). -/
theorem c6_affinity_characterisation (H W : ℕ) (seg : ℕ → ℕ → ℕ)
    (nhood : List (ℤ × ℤ)) (hne : nhood ≠ [])
    (hb : ∀ d ∈ nhood, d.1.natAbs ≤ H ∧ d.2.natAbs ≤ W) :
    ∃ f, compute_affinities H W seg nhood = .ok f ∧
      ∀ e, e < nhood.length → ∀ i, i < H → ∀ j, j < W →
        f e i j =
          if 0 ≤ (i : ℤ) + (nhood.getD e (0, 0)).1 ∧
              (i : ℤ) + (nhood.getD e (0, 0)).1 < (H : ℤ) ∧
              0 ≤ (j : ℤ) + (nhood.getD e (0, 0)).2 ∧
              (j : ℤ) + (nhood.getD e (0, 0)).2 < (W : ℤ) ∧
              seg i j = seg ((i : ℤ) + (nhood.getD e (0, 0)).1).toNat
                ((j : ℤ) + (nhood.getD e (0, 0)).2).toNat ∧
              0 < seg i j ∧
              0 < seg ((i : ℤ) + (nhood.getD e (0, 0)).1).toNat
                ((j : ℤ) + (nhood.getD e (0, 0)).2).toNat
          then 1 else 0 := by
  have hok : ∀ d ∈ nhood, axisOk d.1 H ∧ axisOk d.2 W := by
    intro d hd
    exact ⟨axisOk_of_small (hb d hd).1, axisOk_of_small (hb d hd).2⟩
  refine ⟨fun e i j => planeAt H W seg (nhood.getD e (0, 0)) i j, ?_, ?_⟩
  · rw [compute_affinities, if_pos (And.intro hne hok)]
  · intro e he i hi j hj
    have hmem : nhood.getD e (0, 0) ∈ nhood := by
      rw [List.getD_eq_getElem?_getD, List.getElem?_eq_getElem he]
      exact List.getElem_mem he
    exact planeAt_small H W seg (nhood.getD e (0, 0))
      (hb _ hmem).1 (hb _ hmem).2 i j hi hj

theorem c6_witness :
    ([((-1 : ℤ), (0 : ℤ))] ≠ ([] : List (ℤ × ℤ))) ∧
      (∀ d ∈ [((-1 : ℤ), (0 : ℤ))], d.1.natAbs ≤ 2 ∧ d.2.natAbs ≤ 2) ∧
      (∃ f, compute_affinities 2 2 (fun i _ => i + 1) [((-1 : ℤ), 0)] = .ok f ∧
        ∀ e, e < ([((-1 : ℤ), (0 : ℤ))]).length → ∀ i, i < 2 → ∀ j, j < 2 →
          f e i j =
            if 0 ≤ (i : ℤ) + (([((-1 : ℤ), (0 : ℤ))]).getD e (0, 0)).1 ∧
                (i : ℤ) + (([((-1 : ℤ), (0 : ℤ))]).getD e (0, 0)).1 < (2 : ℤ) ∧
                0 ≤ (j : ℤ) + (([((-1 : ℤ), (0 : ℤ))]).getD e (0, 0)).2 ∧
                (j : ℤ) + (([((-1 : ℤ), (0 : ℤ))]).getD e (0, 0)).2 < (2 : ℤ) ∧
                (fun i _ => i + 1) i j =
                  (fun i _ => i + 1)
                    ((i : ℤ) + (([((-1 : ℤ), (0 : ℤ))]).getD e (0, 0)).1).toNat
                    ((j : ℤ) + (([((-1 : ℤ), (0 : ℤ))]).getD e (0, 0)).2).toNat ∧
                0 < (fun i _ => i + 1) i j ∧
                0 < (fun i _ => i + 1)
                    ((i : ℤ) + (([((-1 : ℤ), (0 : ℤ))]).getD e (0, 0)).1).toNat
                    ((j : ℤ) + (([((-1 : ℤ), (0 : ℤ))]).getD e (0, 0)).2).toNat
            then 1 else 0) :=
  ⟨by decide, by decide,
    c6_affinity_characterisation 2 2 (fun i _ => i + 1) [((-1 : ℤ), 0)]
      (by decide) (by decide)⟩

/-- C6 counterexample: with offset (3, 0) on a 2 x 1 image the destination
row slice 0:-1 has length 1 while the shifted row slice 3:2 is empty, so
numpy broadcasting fails during the slice assignment and compute_affinities
raises instead of producing an all-zero plane as claimed. -/
theorem c6_counterexample :
    compute_affinities 2 1 (fun _ _ => 1) [((3 : ℤ), 0)] = .error () := rfl

end SegEval

namespace SegEval

theorem relabelPerm_zero (f : ℕ → ℕ) (xs : List ℕ) : relabelPerm f xs 0 = 0 := rfl

theorem relabelPerm_succ (f : ℕ → ℕ) (xs : List ℕ) (i : ℕ) :
    relabelPerm f xs (i + 1) = relabelPerm0 f xs i + 1 := by
  rw [relabelPerm, relabelPerm0, if_neg (Nat.succ_ne_zero i), Nat.add_sub_cancel]

theorem map_ne_zero {f : ℕ → ℕ} (hinj : Function.Injective f) (hf0 : f 0 = 0)
    {x : ℕ} (hx : x ≠ 0) : f x ≠ 0 := by
  intro hc
  exact hx (hinj (hc.trans hf0.symm))

theorem labelSet_map {f : ℕ → ℕ} (hinj : Function.Injective f) (hf0 : f 0 = 0)
    (xs : List ℕ) : labelSet (xs.map f) = (labelSet xs).image f := by
  ext a
  rw [labelSet, labelSet, Finset.mem_erase, List.mem_toFinset, List.mem_map,
    Finset.mem_image]
  constructor
  · rintro ⟨ha0, x, hx, rfl⟩
    have hx0 : x ≠ 0 := by
      intro h
      subst h
      exact ha0 hf0
    exact ⟨x, Finset.mem_erase.2 ⟨hx0, List.mem_toFinset.2 hx⟩, rfl⟩
  · rintro ⟨x, hx, rfl⟩
    rw [Finset.mem_erase, List.mem_toFinset] at hx
    exact ⟨map_ne_zero hinj hf0 hx.1, x, hx.2, rfl⟩

theorem card_labelSet_map {f : ℕ → ℕ} (hinj : Function.Injective f)
    (hf0 : f 0 = 0) (xs : List ℕ) :
    (labelSet (xs.map f)).card = (labelSet xs).card := by
  rw [labelSet_map hinj hf0]
  exact Finset.card_image_of_injOn (Function.Injective.injOn hinj)

theorem numLabels_map {f : ℕ → ℕ} (hinj : Function.Injective f) (hf0 : f 0 = 0)
    (xs : List ℕ) : numLabels (xs.map f) = numLabels xs := by
  rw [numLabels_eq_card, numLabels_eq_card, card_labelSet_map hinj hf0]

theorem sortedLabels_getD {xs : List ℕ} {i : ℕ}
    (hi : i < (sortedLabels xs).length) :
    (sortedLabels xs).getD i 0 = (sortedLabels xs)[i] := by
  rw [List.getD_eq_getElem?_getD, List.getElem?_eq_getElem hi]
  rfl

theorem relabelSeq_map {f : ℕ → ℕ} (hinj : Function.Injective f) (hf0 : f 0 = 0)
    (xs : List ℕ) :
    relabelSeq (xs.map f) = (relabelSeq xs).map (relabelPerm f xs) := by
  rw [relabelSeq, relabelSeq, List.map_map, List.map_map]
  apply List.map_congr_left
  intro x hx
  simp only [Function.comp_apply, relabelFun, relabelPerm]
  by_cases hx0 : x = 0
  · subst hx0
    rw [hf0]
    simp
  · have hfx0 : f x ≠ 0 := map_ne_zero hinj hf0 hx0
    have hxmem : x ∈ sortedLabels xs := mem_sortedLabels.2 ⟨hx, hx0⟩
    rw [if_neg hfx0, if_neg hx0, if_neg (Nat.succ_ne_zero _)]
    have hlt : (sortedLabels xs).indexOf x < (sortedLabels xs).length :=
      List.indexOf_lt_length.2 hxmem
    have hgd : (sortedLabels xs).getD ((sortedLabels xs).indexOf x + 1 - 1) 0 = x := by
      simp only [Nat.add_sub_cancel]
      rw [sortedLabels_getD hlt]
      exact List.getElem_indexOf hlt
    rw [hgd]

theorem relabelPerm_le {f : ℕ → ℕ} (hinj : Function.Injective f) (hf0 : f 0 = 0)
    {xs : List ℕ} {v : ℕ} (h1 : 1 ≤ v) (h2 : v ≤ (labelSet xs).card) :
    1 ≤ relabelPerm f xs v ∧ relabelPerm f xs v ≤ (labelSet xs).card := by
  rw [relabelPerm, if_neg (by omega : v ≠ 0)]
  have hlen : (sortedLabels xs).length = (labelSet xs).card :=
    length_sortedLabels xs
  have hlt : v - 1 < (sortedLabels xs).length := by omega
  have hgd : (sortedLabels xs).getD (v - 1) 0 = (sortedLabels xs)[v - 1] :=
    sortedLabels_getD hlt
  have hxmem : (sortedLabels xs)[v - 1] ∈ sortedLabels xs := List.getElem_mem hlt
  obtain ⟨hxs, hx0⟩ := mem_sortedLabels.1 hxmem
  have hfmem : f (sortedLabels xs)[v - 1] ∈ sortedLabels (xs.map f) :=
    mem_sortedLabels.2 ⟨List.mem_map_of_mem f hxs, map_ne_zero hinj hf0 hx0⟩
  have hidx := List.indexOf_lt_length.2 hfmem
  have hlen2 : (sortedLabels (xs.map f)).length = (labelSet xs).card := by
    rw [length_sortedLabels, card_labelSet_map hinj hf0]
  rw [hgd]
  omega

theorem relabelPerm_inj {f : ℕ → ℕ} (hinj : Function.Injective f) (hf0 : f 0 = 0)
    {xs : List ℕ} :
    ∀ u, u ≤ (labelSet xs).card → ∀ v, v ≤ (labelSet xs).card →
      relabelPerm f xs u = relabelPerm f xs v → u = v := by
  intro u hu v hv heq
  by_cases hu0 : u = 0 <;> by_cases hv0 : v = 0
  · omega
  · exfalso
    rw [hu0, relabelPerm_zero] at heq
    have := (relabelPerm_le hinj hf0 (by omega) hv).1
    omega
  · exfalso
    rw [hv0, relabelPerm_zero] at heq
    have := (relabelPerm_le hinj hf0 (by omega) hu).1
    omega
  · rw [relabelPerm, if_neg hu0, relabelPerm, if_neg hv0] at heq
    have hlen : (sortedLabels xs).length = (labelSet xs).card :=
      length_sortedLabels xs
    have hltu : u - 1 < (sortedLabels xs).length := by omega
    have hltv : v - 1 < (sortedLabels xs).length := by omega
    rw [sortedLabels_getD hltu, sortedLabels_getD hltv] at heq
    have hmu : (sortedLabels xs)[u - 1] ∈ sortedLabels xs := List.getElem_mem hltu
    have hmv : (sortedLabels xs)[v - 1] ∈ sortedLabels xs := List.getElem_mem hltv
    obtain ⟨hxsu, hx0u⟩ := mem_sortedLabels.1 hmu
    obtain ⟨hxsv, hx0v⟩ := mem_sortedLabels.1 hmv
    have hfu : f (sortedLabels xs)[u - 1] ∈ sortedLabels (xs.map f) :=
      mem_sortedLabels.2 ⟨List.mem_map_of_mem f hxsu, map_ne_zero hinj hf0 hx0u⟩
    have hfv : f (sortedLabels xs)[v - 1] ∈ sortedLabels (xs.map f) :=
      mem_sortedLabels.2 ⟨List.mem_map_of_mem f hxsv, map_ne_zero hinj hf0 hx0v⟩
    have hidx : (sortedLabels (xs.map f)).indexOf (f (sortedLabels xs)[u - 1]) =
        (sortedLabels (xs.map f)).indexOf (f (sortedLabels xs)[v - 1]) := by omega
    have hfeq : f (sortedLabels xs)[u - 1] = f (sortedLabels xs)[v - 1] :=
      (List.indexOf_inj hfu hfv).1 hidx
    have hxeq : (sortedLabels xs)[u - 1] = (sortedLabels xs)[v - 1] := hinj hfeq
    have h1 := List.indexOf_getElem (sortedLabels_nodup xs) _ hltu
    have h2 := List.indexOf_getElem (sortedLabels_nodup xs) _ hltv
    rw [hxeq] at h1
    omega

end SegEval

namespace SegEval

theorem count_map_of_injOn {σ : ℕ → ℕ} {v : ℕ} :
    ∀ {l : List ℕ}, (∀ x ∈ l, σ x = σ v → x = v) →
      (l.map σ).count (σ v) = l.count v := by
  intro l
  induction l with
  | nil => intro _; rfl
  | cons a t ih =>
      intro h
      rw [List.map_cons, List.count_cons, List.count_cons,
        ih (fun x hx => h x (List.mem_cons_of_mem _ hx))]
      congr 1
      by_cases hva : v = a
      · subst hva
        simp
      · have hne : σ v ≠ σ a := fun hc =>
          hva (Eq.symm (h a (List.mem_cons_self a t) hc.symm))
        rw [if_neg (by simpa using Ne.symm hne), if_neg (by simpa using Ne.symm hva)]

theorem overlapC_map {σ τ : ℕ → ℕ} {gid pid : ℕ} {R1 R2 : List ℕ}
    (h1 : ∀ x ∈ R1, σ x = σ gid → x = gid)
    (h2 : ∀ x ∈ R2, τ x = τ pid → x = pid) :
    overlapC (R1.map σ) (R2.map τ) (σ gid) (τ pid) = overlapC R1 R2 gid pid := by
  rw [overlapC, overlapC, List.zip_map, List.countP_map]
  apply List.countP_congr
  rintro ⟨x, y⟩ hq
  obtain ⟨hx, hy⟩ := List.of_mem_zip hq
  simp only [Function.comp_apply, Prod.map_apply, decide_eq_true_eq]
  constructor
  · rintro ⟨ha, hb⟩
    exact ⟨h1 x hx ha, h2 y hy hb⟩
  · rintro ⟨rfl, rfl⟩
    exact ⟨rfl, rfl⟩

theorem mem_relabelSeq_le {xs : List ℕ} {x : ℕ} (hx : x ∈ relabelSeq xs) :
    x ≤ (labelSet xs).card := by
  rcases List.mem_map.1 hx with ⟨y, hy, rfl⟩
  exact relabelFun_le hy

theorem iouId_map {f g : ℕ → ℕ} (hfinj : Function.Injective f) (hf0 : f 0 = 0)
    (hginj : Function.Injective g) (hg0 : g 0 = 0) (xs ys : List ℕ) {v u : ℕ}
    (hv : v ≤ (labelSet xs).card) (hu : u ≤ (labelSet ys).card) :
    iouId (xs.map f) (ys.map g) (relabelPerm f xs v) (relabelPerm g ys u) =
      iouId xs ys v u := by
  have hRv : ∀ x ∈ relabelSeq xs, relabelPerm f xs x = relabelPerm f xs v → x = v :=
    fun x hx heq => relabelPerm_inj hfinj hf0 x (mem_relabelSeq_le hx) v hv heq
  have hRu : ∀ x ∈ relabelSeq ys, relabelPerm g ys x = relabelPerm g ys u → x = u :=
    fun x hx heq => relabelPerm_inj hginj hg0 x (mem_relabelSeq_le hx) u hu heq
  rw [iouId, iouId, relabelSeq_map hfinj hf0, relabelSeq_map hginj hg0,
    overlapC_map hRv hRu, count_map_of_injOn hRv, count_map_of_injOn hRu]

theorem iouM_map {f g : ℕ → ℕ} (hfinj : Function.Injective f) (hf0 : f 0 = 0)
    (hginj : Function.Injective g) (hg0 : g 0 = 0) (xs ys : List ℕ) {a b : ℕ}
    (ha : a < (labelSet xs).card) (hb : b < (labelSet ys).card) :
    iouM (xs.map f) (ys.map g) (relabelPerm0 f xs a) (relabelPerm0 g ys b) =
      iouM xs ys a b := by
  rw [iouM, iouM, ← relabelPerm_succ f xs a, ← relabelPerm_succ g ys b]
  exact iouId_map hfinj hf0 hginj hg0 xs ys (by omega) (by omega)

theorem relabelPerm0_lt {f : ℕ → ℕ} (hinj : Function.Injective f) (hf0 : f 0 = 0)
    {xs : List ℕ} {i : ℕ} (hi : i < (labelSet xs).card) :
    relabelPerm0 f xs i < (labelSet xs).card := by
  have h := relabelPerm_le hinj hf0 (show 1 ≤ i + 1 by omega)
    (show i + 1 ≤ (labelSet xs).card by omega)
  rw [relabelPerm_succ] at h
  omega

theorem relabelPerm0_inj {f : ℕ → ℕ} (hinj : Function.Injective f) (hf0 : f 0 = 0)
    {xs : List ℕ} {i i2 : ℕ} (hi : i < (labelSet xs).card)
    (hi2 : i2 < (labelSet xs).card)
    (heq : relabelPerm0 f xs i = relabelPerm0 f xs i2) : i = i2 := by
  have h := relabelPerm_inj hinj hf0 (i + 1)
    (show i + 1 ≤ (labelSet xs).card by omega) (i2 + 1)
    (show i2 + 1 ≤ (labelSet xs).card by omega)
    (by rw [relabelPerm_succ, relabelPerm_succ, heq])
  omega

theorem relabelPerm0_surj {f : ℕ → ℕ} (hinj : Function.Injective f)
    (hf0 : f 0 = 0) {xs : List ℕ} {w : ℕ} (hw : w < (labelSet xs).card) :
    ∃ i, i < (labelSet xs).card ∧ relabelPerm0 f xs i = w := by
  have hsurj : ∀ b ∈ Finset.range (labelSet xs).card,
      ∃ a, ∃ _ : a ∈ Finset.range (labelSet xs).card, b = relabelPerm0 f xs a :=
    Finset.surj_on_of_inj_on_of_card_le
    (fun a _ => relabelPerm0 f xs a)
    (fun a ha => Finset.mem_range.2
      (relabelPerm0_lt hinj hf0 (Finset.mem_range.1 ha)))
    (fun a1 a2 ha1 ha2 h => relabelPerm0_inj hinj hf0
      (Finset.mem_range.1 ha1) (Finset.mem_range.1 ha2) h)
    le_rfl
  obtain ⟨i, hi, hieq⟩ := hsurj w (Finset.mem_range.2 hw)
  exact ⟨i, Finset.mem_range.1 hi, hieq.symm⟩

end SegEval

namespace SegEval

theorem maxAbove_le_of_map (n m : ℕ) (io io2 : ℕ → ℕ → ℚ) (th : ℚ)
    (α β : ℕ → ℕ)
    (hα : ∀ i < n, α i < n) (hβ : ∀ j < m, β j < m)
    (hαinj : ∀ i < n, ∀ i2 < n, α i = α i2 → i = i2)
    (hβinj : ∀ j < m, ∀ j2 < m, β j = β j2 → j = j2)
    (hio : ∀ i < n, ∀ j < m, io2 (α i) (β j) = io i j) :
    maxAbove n m io th ≤ maxAbove n m io2 th := by
  apply Finset.sup_le
  intro S hS
  rw [mem_aboveMatchings] at hS
  obtain ⟨hsub, hmatch, habove⟩ := hS
  have hbounds : ∀ q ∈ S, q.1 < n ∧ q.2 < m := by
    intro q hq
    have h := hsub hq
    rw [grid, Finset.mem_product, Finset.mem_range, Finset.mem_range] at h
    exact h
  have himg : S.image (Prod.map α β) ∈ aboveMatchings n m io2 th := by
    apply mem_aboveMatchings.2
    refine ⟨?_, ?_, ?_⟩
    · intro q hq
      rcases Finset.mem_image.1 hq with ⟨p, hp, rfl⟩
      obtain ⟨h1, h2⟩ := hbounds p hp
      rw [grid, Finset.mem_product]
      exact ⟨Finset.mem_range.2 (hα _ h1), Finset.mem_range.2 (hβ _ h2)⟩
    · intro a ha b hb hab
      rcases Finset.mem_image.1 ha with ⟨p, hp, rfl⟩
      rcases Finset.mem_image.1 hb with ⟨r, hr, rfl⟩
      obtain ⟨hp1, hp2⟩ := hbounds p hp
      obtain ⟨hr1, hr2⟩ := hbounds r hr
      have hpr : p = r := by
        apply hmatch p hp r hr
        rcases hab with h | h
        · exact Or.inl (hαinj _ hp1 _ hr1 (by simpa using h))
        · exact Or.inr (hβinj _ hp2 _ hr2 (by simpa using h))
      rw [hpr]
    · intro q hq
      rcases Finset.mem_image.1 hq with ⟨p, hp, rfl⟩
      obtain ⟨h1, h2⟩ := hbounds p hp
      have hval := hio p.1 h1 p.2 h2
      have habv := habove p hp
      simp only [Prod.map_fst, Prod.map_snd]
      rw [hval]
      exact habv
  calc S.card = (S.image (Prod.map α β)).card := by
        rw [Finset.card_image_of_injOn]
        intro a ha b hb hab
        obtain ⟨ha1, ha2⟩ := hbounds a ha
        obtain ⟨hb1, hb2⟩ := hbounds b hb
        have h1 : α a.1 = α b.1 := by simpa using congrArg Prod.fst hab
        have h2 : β a.2 = β b.2 := by simpa using congrArg Prod.snd hab
        exact Prod.ext (hαinj _ ha1 _ hb1 h1) (hβinj _ ha2 _ hb2 h2)
    _ ≤ maxAbove n m io2 th := Finset.le_sup himg

theorem maxAbove_eq_of_rel (n m : ℕ) (io io2 : ℕ → ℕ → ℚ) (th : ℚ)
    (α β : ℕ → ℕ)
    (hα : ∀ i < n, α i < n) (hβ : ∀ j < m, β j < m)
    (hαinj : ∀ i < n, ∀ i2 < n, α i = α i2 → i = i2)
    (hβinj : ∀ j < m, ∀ j2 < m, β j = β j2 → j = j2)
    (hαsurj : ∀ w, w < n → ∃ i, i < n ∧ α i = w)
    (hβsurj : ∀ w, w < m → ∃ j, j < m ∧ β j = w)
    (hio : ∀ i < n, ∀ j < m, io2 (α i) (β j) = io i j) :
    maxAbove n m io2 th = maxAbove n m io th := by
  classical
  obtain ⟨αv, hαv⟩ : ∃ αv : ℕ → ℕ, ∀ w, w < n → αv w < n ∧ α (αv w) = w := by
    refine ⟨fun w => if h : ∃ i, i < n ∧ α i = w then h.choose else 0, ?_⟩
    intro w hw
    have hh : ∃ i, i < n ∧ α i = w := hαsurj w hw
    dsimp only
    rw [dif_pos hh]
    exact hh.choose_spec
  obtain ⟨βv, hβv⟩ : ∃ βv : ℕ → ℕ, ∀ w, w < m → βv w < m ∧ β (βv w) = w := by
    refine ⟨fun w => if h : ∃ j, j < m ∧ β j = w then h.choose else 0, ?_⟩
    intro w hw
    have hh : ∃ j, j < m ∧ β j = w := hβsurj w hw
    dsimp only
    rw [dif_pos hh]
    exact hh.choose_spec
  apply le_antisymm
  · apply maxAbove_le_of_map n m io2 io th αv βv
    · intro w hw; exact (hαv w hw).1
    · intro w hw; exact (hβv w hw).1
    · intro w hw w2 hw2 heq
      have h1 := (hαv w hw).2
      have h2 := (hαv w2 hw2).2
      rw [← h1, ← h2, heq]
    · intro w hw w2 hw2 heq
      have h1 := (hβv w hw).2
      have h2 := (hβv w2 hw2).2
      rw [← h1, ← h2, heq]
    · intro a ha b hb
      have h1 := hαv a ha
      have h2 := hβv b hb
      have h3 := hio (αv a) h1.1 (βv b) h2.1
      rw [h1.2, h2.2] at h3
      exact h3.symm
  · exact maxAbove_le_of_map n m io io2 th α β hα hβ hαinj hβinj hio

theorem maxIoU_map {f g : ℕ → ℕ} (hfinj : Function.Injective f) (hf0 : f 0 = 0)
    (hginj : Function.Injective g) (hg0 : g 0 = 0) (gtF predF : List ℕ) :
    maxIoU (gtF.map f) (predF.map g) = maxIoU gtF predF := by
  have hn := numLabels_map hfinj hf0 gtF
  have hm := numLabels_map hginj hg0 predF
  have hnc := numLabels_eq_card gtF
  have hmc := numLabels_eq_card predF
  apply le_antisymm
  · apply maxIoU_le (maxIoU_nonneg gtF predF)
    intro a ha b hb
    rw [hn, hnc] at ha
    rw [hm, hmc] at hb
    obtain ⟨i, hi, hieq⟩ := relabelPerm0_surj hfinj hf0 ha
    obtain ⟨j, hj, hjeq⟩ := relabelPerm0_surj hginj hg0 hb
    rw [← hieq, ← hjeq, iouM_map hfinj hf0 hginj hg0 gtF predF hi hj]
    exact iouM_le_maxIoU (by omega) (by omega)
  · apply maxIoU_le (maxIoU_nonneg _ _)
    intro a ha b hb
    rw [hnc] at ha
    rw [hmc] at hb
    rw [← iouM_map hfinj hf0 hginj hg0 gtF predF ha hb]
    apply iouM_le_maxIoU
    · rw [hn, hnc]
      exact relabelPerm0_lt hfinj hf0 ha
    · rw [hm, hmc]
      exact relabelPerm0_lt hginj hg0 hb

theorem flatten_mapImg (f : ℕ → ℕ) (img : List (List ℕ)) :
    (mapImg f img).flatten = img.flatten.map f := by
  induction img with
  | nil => rfl
  | cons r t ih =>
      rw [mapImg, List.map_cons, List.flatten_cons, List.flatten_cons,
        List.map_append]
      rw [mapImg] at ih
      rw [ih]

theorem evalResultFlat_congr (gtF predF gtF2 predF2 : List ℕ) (th : ℚ)
    (s s2 : Finset (ℕ × ℕ))
    (hn : numLabels gtF2 = numLabels gtF)
    (hm : numLabels predF2 = numLabels predF)
    (htp : tpWith gtF2 predF2 th s2 = tpWith gtF predF th s) :
    evalResultFlat gtF2 predF2 th s2 = evalResultFlat gtF predF th s := by
  rw [evalResultFlat, evalResultFlat, accuracyWith, accuracyWith,
    precisionWith, precisionWith, recallWith, recallWith,
    fpWith, fpWith, fnWith, fnWith, htp, hn, hm]

end SegEval

namespace SegEval

/-- C3: evaluate is invariant under independent injective zero-preserving
relabelings of the two inputs (covering the bijective nonzero relabelings
of the specification): for every optimal assignment the solver may return
on the original inputs and every optimal assignment on the remapped inputs,
the two calls return identical results. -/
theorem c3_relabel_invariance (gt pred : List (List ℕ)) (th : ℚ)
    (f g : ℕ → ℕ) (hfinj : Function.Injective f) (hf0 : f 0 = 0)
    (hginj : Function.Injective g) (hg0 : g 0 = 0)
    (s s2 : Finset (ℕ × ℕ))
    (hs : IsOptimalFor gt.flatten pred.flatten th s)
    (hs2 : IsOptimalFor (mapImg f gt).flatten (mapImg g pred).flatten th s2) :
    evaluateImg (mapImg f gt) (mapImg g pred) th s2 =
      evaluateImg gt pred th s := by
  rw [flatten_mapImg, flatten_mapImg] at hs2
  have hn := numLabels_map hfinj hf0 gt.flatten
  have hm := numLabels_map hginj hg0 pred.flatten
  have hnc := numLabels_eq_card gt.flatten
  have hmc := numLabels_eq_card pred.flatten
  have hmx := maxIoU_map hfinj hf0 hginj hg0 gt.flatten pred.flatten
  have hbr : branchCond (gt.flatten.map f) (pred.flatten.map g) th ↔
      branchCond gt.flatten pred.flatten th := by
    rw [branchCond, branchCond, numMatches, numMatches, hn, hm, hmx]
  have hmaxab : maxAbove (numLabels gt.flatten) (numLabels pred.flatten)
      (iouM (gt.flatten.map f) (pred.flatten.map g)) th =
      maxAbove (numLabels gt.flatten) (numLabels pred.flatten)
        (iouM gt.flatten pred.flatten) th := by
    apply maxAbove_eq_of_rel _ _ _ _ _ (relabelPerm0 f gt.flatten)
      (relabelPerm0 g pred.flatten)
    · intro i hi
      rw [hnc] at hi ⊢
      exact relabelPerm0_lt hfinj hf0 hi
    · intro j hj
      rw [hmc] at hj ⊢
      exact relabelPerm0_lt hginj hg0 hj
    · intro i hi i2 hi2 heq
      rw [hnc] at hi hi2
      exact relabelPerm0_inj hfinj hf0 hi hi2 heq
    · intro j hj j2 hj2 heq
      rw [hmc] at hj hj2
      exact relabelPerm0_inj hginj hg0 hj hj2 heq
    · intro w hw
      rw [hnc] at hw ⊢
      exact relabelPerm0_surj hfinj hf0 hw
    · intro w hw
      rw [hmc] at hw ⊢
      exact relabelPerm0_surj hginj hg0 hw
    · intro i hi j hj
      rw [hnc] at hi
      rw [hmc] at hj
      exact iouM_map hfinj hf0 hginj hg0 gt.flatten pred.flatten hi hj
  have htp : tpWith (gt.flatten.map f) (pred.flatten.map g) th s2 =
      tpWith gt.flatten pred.flatten th s := by
    by_cases hb : branchCond gt.flatten pred.flatten th
    · have hb2 := hbr.2 hb
      rw [tpWith, if_pos hb2, tpWith, if_pos hb]
      have e1 := tp_eq_maxAbove_of_optimal (numLabels (gt.flatten.map f))
        (numLabels (pred.flatten.map g))
        (iouM (gt.flatten.map f) (pred.flatten.map g)) th
        (iouM_nonneg _ _) (iouM_le_one _ _) hb2.1 hs2.1 hs2.2
      have e2 := tp_eq_maxAbove_of_optimal (numLabels gt.flatten)
        (numLabels pred.flatten) (iouM gt.flatten pred.flatten) th
        (iouM_nonneg _ _) (iouM_le_one _ _) hb.1 hs.1 hs.2
      rw [e1, e2, hn, hm, hmaxab]
    · rw [tpWith, if_neg (fun hc => hb (hbr.1 hc)), tpWith, if_neg hb]
  rw [evaluateImg, evaluateImg, flatten_mapImg, flatten_mapImg,
    List.length_map, List.length_map]
  by_cases hlen : gt.flatten.length = pred.flatten.length
  · rw [if_pos hlen, if_pos hlen,
      evalResultFlat_congr gt.flatten pred.flatten (gt.flatten.map f)
        (pred.flatten.map g) th s s2 hn hm htp]
  · rw [if_neg hlen, if_neg hlen]

theorem shift_injective :
    Function.Injective (fun x : ℕ => if x = 0 then 0 else x + 1) := by
  intro a b h
  simp only at h
  split_ifs at h <;> omega

theorem c3_witness :
    Function.Injective (fun x : ℕ => if x = 0 then 0 else x + 1) ∧
      (fun x : ℕ => if x = 0 then 0 else x + 1) 0 = 0 ∧
      IsOptimalFor [1] [1] (1/2) {(0, 0)} ∧
      IsOptimalFor
        (mapImg (fun x : ℕ => if x = 0 then 0 else x + 1) [[1]]).flatten
        (mapImg (fun x : ℕ => if x = 0 then 0 else x + 1) [[1]]).flatten
        (1/2) {(0, 0)} ∧
      evaluateImg (mapImg (fun x : ℕ => if x = 0 then 0 else x + 1) [[1]])
          (mapImg (fun x : ℕ => if x = 0 then 0 else x + 1) [[1]]) (1/2)
          {(0, 0)} =
        evaluateImg [[1]] [[1]] (1/2) {(0, 0)} :=
  ⟨shift_injective, rfl, by with_unfolding_all decide,
    by with_unfolding_all decide,
    c3_relabel_invariance [[1]] [[1]] (1/2) _ _ shift_injective rfl
      shift_injective rfl {(0, 0)} {(0, 0)} (by with_unfolding_all decide)
      (by with_unfolding_all decide)⟩

end SegEval

namespace SegEval

theorem sorted_insertSorted {x : ℕ} :
    ∀ {l : List ℕ}, l.Sorted (· ≤ ·) → (insertSorted x l).Sorted (· ≤ ·) := by
  intro l
  induction l with
  | nil => intro _; simp [insertSorted]
  | cons y ys ih =>
      intro hl
      rw [List.sorted_cons] at hl
      rw [insertSorted]
      split_ifs with hxy
      · rw [List.sorted_cons]
        refine ⟨?_, List.sorted_cons.2 hl⟩
        intro b hb
        rcases List.mem_cons.1 hb with rfl | hb
        · exact hxy
        · exact le_trans hxy (hl.1 b hb)
      · rw [List.sorted_cons]
        refine ⟨?_, ih hl.2⟩
        intro b hb
        rcases mem_insertSorted.1 hb with rfl | hb
        · omega
        · exact hl.1 b hb

theorem sortNat_sorted : ∀ l : List ℕ, (sortNat l).Sorted (· ≤ ·) := by
  intro l
  induction l with
  | nil => simp [sortNat]
  | cons y ys ih => exact sorted_insertSorted ih

theorem sortedLabels_sorted (xs : List ℕ) :
    (sortedLabels xs).Sorted (· ≤ ·) :=
  sortNat_sorted _

end SegEval
